import Mathlib

/-!
# Difference of IPv4 address pools

A shallow embedding of `src/addresses-pool/ipv4_pools.{h,cpp}`:

* `IPAddress` is `std::uint32_t`, embedded as a natural number below `U32 = 2^32`;
  the unsigned machine operations `-` and `+` are `sub32` and `add32` (modulo `2^32`).
* `Range` is `std::pair<IPAddress, IPAddress>`.
* `Pool` is `std::set<Range>`, embedded as the list of its elements in iteration order
  (strictly ascending in the lexicographic order of pairs, see `IsPool`).
* A `Pool::const_iterator` into a pool is embedded as the list of the elements from the
  iterator position to the end; the end iterator is `[]`.
-/

namespace netup_tt

/-! ## Data model (`ipv4_pools.h`) -/

/-- The number of values of `std::uint32_t`. -/
def U32 : Nat := 4294967296

/-- Addresses are `std::uint32_t` values; as numbers they are below `U32`. The signatures
below write `Nat` for this type. -/
abbrev IPAddress := Nat

/-- An address range `std::pair<IPAddress, IPAddress>`: `(first, last)`, both inclusive. -/
abbrev Range := Nat × Nat

/-- A pool `std::set<Range>`, as the list of its elements in iteration order. -/
abbrev Pool := List Range

/-- Unsigned 32-bit subtraction `a - b` of two `std::uint32_t` values. -/
def sub32 (a b : Nat) : Nat := (a + U32 - b) % U32

/-- Unsigned 32-bit addition `a + b` of two `std::uint32_t` values. -/
def add32 (a b : Nat) : Nat := (a + b) % U32

/-- The order `operator<` of `std::pair`, which is the key order of `std::set<Range>`. -/
def rangeLt (a b : Range) : Prop := a.1 < b.1 ∨ (a.1 = b.1 ∧ a.2 < b.2)

instance rangeLtDecidable (a b : Range) : Decidable (rangeLt a b) := by
  unfold rangeLt; exact inferInstance

/-- The representation invariant of `std::set<Range>`: the elements are strictly ascending
in the key order (so there are no duplicates) and every component is a `std::uint32_t`. -/
def IsPool (p : Pool) : Prop :=
  p.Pairwise rangeLt ∧ ∀ r ∈ p, r.1 < U32 ∧ r.2 < U32

instance isPoolDecidable (p : Pool) : Decidable (IsPool p) := by
  unfold IsPool; exact inferInstance

/-- A pool is valid when every range of it has `first <= last`. -/
def ValidPool (p : Pool) : Prop := ∀ r ∈ p, r.1 ≤ r.2

instance validPoolDecidable (p : Pool) : Decidable (ValidPool p) := by
  unfold ValidPool; exact inferInstance

/-- Insertion into a `std::set<Range>` (`emplace` / `insert`): the new element is put at its
place in the key order, and the set is left unchanged when it already holds the element. -/
def poolInsert (r : Range) : Pool → Pool
  | [] => [r]
  | x :: xs =>
    if rangeLt r x then r :: x :: xs
    else if rangeLt x r then x :: poolInsert r xs
    else x :: xs

/-- Address `a` is covered by some range of `p`. -/
def covered (a : Nat) (p : List Range) : Prop := ∃ r ∈ p, r.1 ≤ a ∧ a ≤ r.2

instance coveredDecidable (a : Nat) (p : List Range) : Decidable (covered a p) := by
  unfold covered; exact inferInstance

/-- Canonical form of a pool as the specification words it: every range has
`first <= last`, and two consecutive ranges `(a,b)`, `(c,d)` satisfy `c > b` and `c - b > 1`.
The consecutive pairs of `p` are the elements of `p.zip p.tail`. -/
def Canonical (p : List Range) : Prop :=
  (∀ r ∈ p, r.1 ≤ r.2) ∧ ∀ q ∈ p.zip p.tail, q.2.1 > q.1.2 ∧ q.2.1 - q.1.2 > 1

instance canonicalDecidable (p : List Range) : Decidable (Canonical p) := by
  unfold Canonical; exact inferInstance

/-! ## `getNextReducedRange` (`ipv4_pools.cpp`, lines 13-38) -/

/-- The loop `while (++current != end)` of `getNextReducedRange` (lines 26-35), entered with
`current` already incremented: the argument list is the input from `current` on.
It returns the final `range_last` and the final position of `current`. -/
def reduceLoop (range_last : Nat) : List Range → Nat × List Range
  | [] => (range_last, [])
  | c :: rest =>
    if c.1 > range_last ∧ sub32 c.1 range_last > 1 then (range_last, c :: rest)
    else reduceLoop (max range_last c.2) rest

/-- The function `getNextReducedRange(current, end)`: the returned optional range, together
with the new value of the by-reference iterator `current`. -/
def getNextReducedRange (current : List Range) : Option Range × List Range :=
  match current with
  | [] => (none, [])
  | c :: rest =>
    let range_first := c.1
    let range_last := c.2
    let res := reduceLoop range_last rest
    (some (range_first, res.1), res.2)

/-! ## `find_diff` (`ipv4_pools.cpp`, lines 43-179) -/

/-- The local variables of `find_diff`. -/
structure SweepState where
  old_iter : List Range
  new_iter : List Range
  old_range : Option Range
  new_range : Option Range
  advance_old : Bool
  advance_new : Bool
  noncovered_start : Option Nat
  diff : Pool
deriving DecidableEq

/-- The ways in which a run of the embedded program can fail to return a pool. -/
inductive Fault where
  | outOfFuel
  | nulloptDeref
  | wrapped
deriving DecidableEq

deriving instance DecidableEq for Except

/-- The state at the entry of the sweep loop (lines 45-51). -/
def initState (old_pool new_pool : Pool) : SweepState :=
  { old_iter := old_pool, new_iter := new_pool, old_range := none, new_range := none,
    advance_old := true, advance_new := true, noncovered_start := none, diff := [] }

/-- Lines 55-67: pull the next reduced range of the old pool when `advance_old` is set. -/
def pullOld (s : SweepState) : SweepState :=
  if s.advance_old then
    match getNextReducedRange s.old_iter with
    | (some r, it) =>
      { s with old_iter := it, old_range := some r, noncovered_start := some r.1,
               advance_old := false }
    | (none, it) =>
      { s with old_iter := it, old_range := none, noncovered_start := none,
               advance_old := false }
  else s

/-- Lines 69-73: pull the next reduced range of the new pool when `advance_new` is set. -/
def pullNew (s : SweepState) : SweepState :=
  if s.advance_new then
    let res := getNextReducedRange s.new_iter
    { s with new_iter := res.2, new_range := res.1, advance_new := false }
  else s

/-- Lines 80-163: the case analysis on the current ranges `o = *old_range` and
`n = *new_range`, both present. -/
def compareStep (s : SweepState) (o n : Range) : SweepState :=
  if o.2 < n.1 then
    match s.noncovered_start with
    | some v =>
      { s with diff := poolInsert (v, o.2) s.diff, noncovered_start := none,
               advance_old := true }
    | none => { s with advance_old := true }
  else if n.2 < o.1 then
    { s with advance_new := true }
  else
    let s1 : SweepState :=
      match s.noncovered_start with
      | some v =>
        if v < n.1 then
          { s with diff := poolInsert (v, sub32 n.1 1) s.diff, noncovered_start := none }
        else { s with noncovered_start := none }
      | none => s
    if n.2 < o.2 then
      { s1 with noncovered_start := some (add32 n.2 1), advance_new := true }
    else
      { s1 with advance_old := true }

/-- One execution of the body of the sweep loop (lines 55-163). The flag tells whether the
body left the loop through `break` (line 77). -/
def sweepBody (s : SweepState) : SweepState × Bool :=
  let s2 := pullNew (pullOld s)
  match s2.old_range, s2.new_range with
  | some o, some n => (compareStep s2 o n, false)
  | _, _ => (s2, true)

/-- The sweep loop `while (old_iter != old_end || new_iter != new_end)` (lines 53-164),
run for at most `fuel` tests of the loop condition. -/
def sweepLoop : Nat → SweepState → Except Fault SweepState
  | 0, _ => .error .outOfFuel
  | fuel + 1, s =>
    if s.old_iter ≠ [] ∨ s.new_iter ≠ [] then
      match sweepBody s with
      | (s1, true) => .ok s1
      | (s1, false) => sweepLoop fuel s1
    else .ok s

/-- Lines 168-171: the final flush of the pending stretch. Dereferencing an absent
`old_range` is undefined behaviour in the source and a fault here. -/
def finalFlush (s : SweepState) : Except Fault Pool :=
  match s.noncovered_start with
  | some v =>
    match s.old_range with
    | some o => .ok (poolInsert (v, o.2) s.diff)
    | none => .error .nulloptDeref
  | none => .ok s.diff

/-- Lines 173-176: the loop `while ((old_range = getNextReducedRange(old_iter, old_end)))`,
run for at most `fuel` calls of `getNextReducedRange`. -/
def drainLoop : Nat → List Range → Pool → Except Fault Pool
  | 0, _, _ => .error .outOfFuel
  | fuel + 1, old_iter, diff =>
    match getNextReducedRange old_iter with
    | (some r, it) => drainLoop fuel it (poolInsert r diff)
    | (none, _) => .ok diff

/-- The function `find_diff(old_pool, new_pool)`. Each loop gets as much fuel as it can need:
one test more than there are elements left to consume. -/
def find_diff (old_pool new_pool : Pool) : Except Fault Pool :=
  match sweepLoop (old_pool.length + new_pool.length + 1) (initState old_pool new_pool) with
  | .error e => .error e
  | .ok s =>
    match finalFlush s with
    | .error e => .error e
    | .ok diff => drainLoop (s.old_iter.length + 1) s.old_iter diff

/-- The collection of ranges obtained by calling `getNextReducedRange` repeatedly from the
given position until it returns nothing, for at most `fuel` calls. -/
def normalizeLoop : Nat → List Range → Except Fault (List Range)
  | 0, _ => .error .outOfFuel
  | fuel + 1, current =>
    match getNextReducedRange current with
    | (some r, it) =>
      match normalizeLoop fuel it with
      | .ok rs => .ok (r :: rs)
      | .error e => .error e
    | (none, _) => .ok []

/-- The normalization of a pool: all outputs of `getNextReducedRange` from the beginning. -/
def normalize (p : Pool) : Except Fault (List Range) :=
  normalizeLoop (p.length + 1) p

/-! ## Definitions used in the proofs -/

/-- Both components of every range are `std::uint32_t` values. -/
def Bounded (l : List Range) : Prop := ∀ r ∈ l, r.1 < U32 ∧ r.2 < U32

/-- Canonical form as the proofs use it: every range has `first <= last` and ends more than
one address before every later range starts. -/
def Canon (l : List Range) : Prop :=
  (∀ r ∈ l, r.1 ≤ r.2) ∧ l.Pairwise (fun x y => x.2 + 1 < y.1)

/-- The ranges are ascending by `first` (as every pool iterates). -/
def SortedFirst (l : List Range) : Prop := l.Pairwise (fun x y => x.1 ≤ y.1)

/-- Reference normalization with an open range `(first, last)`, by recursion on the input. -/
def normAux (first last : Nat) : List Range → List Range
  | [] => [(first, last)]
  | c :: rest =>
    if last + 1 < c.1 then (first, last) :: normAux c.1 c.2 rest
    else normAux first (max last c.2) rest

/-- Reference normalization: what the repeated calls of `getNextReducedRange` produce. -/
def norm : List Range → List Range
  | [] => []
  | c :: rest => normAux c.1 c.2 rest

/-- The part of the old pool that the sweep has not yet accounted for: the pending stretch
of the current old range, followed by the reduced ranges still to be pulled. -/
def pendOld (s : SweepState) : List Range :=
  match s.noncovered_start, s.old_range with
  | some v, some o => (v, o.2) :: norm s.old_iter
  | _, _ => norm s.old_iter

/-- The part of the new pool that the sweep has not yet discarded: the current new range
unless it is to be replaced, followed by the reduced ranges still to be pulled. -/
def pendNew (s : SweepState) : List Range :=
  match s.advance_new, s.new_range with
  | false, some n => n :: norm s.new_iter
  | _, _ => norm s.new_iter

/-- The invariant of the sweep on the emitted ranges and the pending parts of both pools. -/
structure SweepCore (O N : Pool) (s : SweepState) : Prop where
  bOld : Bounded s.old_iter
  bNew : Bounded s.new_iter
  bPendOld : Bounded (pendOld s)
  bPendNew : Bounded (pendNew s)
  canonOld : Canon (s.diff ++ pendOld s)
  canonNew : Canon (pendNew s)
  cover : ∀ a, (covered a O ∧ ¬ covered a N) ↔
    (covered a s.diff ∨ (covered a (pendOld s) ∧ ¬ covered a (pendNew s)))

/-- The invariant of the sweep on its flags, at the test of the loop condition. -/
structure SweepFlags (s : SweepState) : Prop where
  flagOld : s.advance_old = true → s.noncovered_start = none
  flagCur : s.advance_old = false →
    ∃ o v, s.old_range = some o ∧ s.noncovered_start = some v ∧ o.1 ≤ v ∧
      (v = o.1 ∨ ∀ y ∈ pendNew s, v < y.1)
  flagNew : s.advance_new = false → ∃ n, s.new_range = some n
  flagAny : s.advance_old = true ∨ s.advance_new = true


/-- What holds when the sweep loop is left: the emitted ranges followed by the pending part
of the old pool are the canonical form of the difference. -/
structure SweepDone (O N : Pool) (s : SweepState) : Prop where
  bOld : Bounded s.old_iter
  canonOld : Canon (s.diff ++ pendOld s)
  cover : ∀ a, (covered a O ∧ ¬ covered a N) ↔ covered a (s.diff ++ pendOld s)
  deref : ∀ v, s.noncovered_start = some v → ∃ o, s.old_range = some o


/-! ## The same program with every address operation checked

The definitions below repeat `getNextReducedRange` and `find_diff` line by line, with the
three address operations of the source (line 30: `current->first - range_last`, line 132:
`new_range->first - 1`, line 149: `new_range->second + 1`) replaced by operations that
compute the exact integer result and fault when that result is not a `std::uint32_t`
value, that is, when the machine operation would wrap. An operation that the source does
not evaluate (the right operand of `&&` after a false left operand, a branch not taken) is
not evaluated here either. -/

/-- Checked `a - b`: the exact difference, or a fault when it is negative. -/
def sub32Chk (a b : Nat) : Except Fault Nat :=
  if b ≤ a then .ok (a - b) else .error .wrapped

/-- Checked `a + b`: the exact sum, or a fault when it is not below `2^32`. -/
def add32Chk (a b : Nat) : Except Fault Nat :=
  if a + b < U32 then .ok (a + b) else .error .wrapped

/-- The loop of `getNextReducedRange` (lines 26-35) with the subtraction of line 30 checked. -/
def reduceLoopChk (range_last : Nat) : List Range → Except Fault (Nat × List Range)
  | [] => .ok (range_last, [])
  | c :: rest =>
    if c.1 > range_last then
      match sub32Chk c.1 range_last with
      | .error e => .error e
      | .ok delta =>
        if delta > 1 then .ok (range_last, c :: rest)
        else reduceLoopChk (max range_last c.2) rest
    else reduceLoopChk (max range_last c.2) rest

/-- The function `getNextReducedRange` with checked address operations. -/
def getNextReducedRangeChk (current : List Range) :
    Except Fault (Option Range × List Range) :=
  match current with
  | [] => .ok (none, [])
  | c :: rest =>
    match reduceLoopChk c.2 rest with
    | .error e => .error e
    | .ok res => .ok (some (c.1, res.1), res.2)

/-- Lines 55-67 with checked address operations. -/
def pullOldChk (s : SweepState) : Except Fault SweepState :=
  if s.advance_old then
    match getNextReducedRangeChk s.old_iter with
    | .error e => .error e
    | .ok (some r, it) =>
      .ok { s with old_iter := it, old_range := some r, noncovered_start := some r.1,
                   advance_old := false }
    | .ok (none, it) =>
      .ok { s with old_iter := it, old_range := none, noncovered_start := none,
                   advance_old := false }
  else .ok s

/-- Lines 69-73 with checked address operations. -/
def pullNewChk (s : SweepState) : Except Fault SweepState :=
  if s.advance_new then
    match getNextReducedRangeChk s.new_iter with
    | .error e => .error e
    | .ok res => .ok { s with new_iter := res.2, new_range := res.1, advance_new := false }
  else .ok s

/-- Lines 115-135 with the subtraction of line 132 checked. -/
def flushBeforeChk (s : SweepState) (n : Range) : Except Fault SweepState :=
  match s.noncovered_start with
  | some v =>
    if v < n.1 then
      match sub32Chk n.1 1 with
      | .error e => .error e
      | .ok e => .ok { s with diff := poolInsert (v, e) s.diff, noncovered_start := none }
    else .ok { s with noncovered_start := none }
  | none => .ok s

/-- Lines 80-163 with checked address operations. -/
def compareStepChk (s : SweepState) (o n : Range) : Except Fault SweepState :=
  if o.2 < n.1 then
    match s.noncovered_start with
    | some v =>
      .ok { s with diff := poolInsert (v, o.2) s.diff, noncovered_start := none,
                   advance_old := true }
    | none => .ok { s with advance_old := true }
  else if n.2 < o.1 then
    .ok { s with advance_new := true }
  else
    match flushBeforeChk s n with
    | .error e => .error e
    | .ok s1 =>
      if n.2 < o.2 then
        match add32Chk n.2 1 with
        | .error e => .error e
        | .ok v1 => .ok { s1 with noncovered_start := some v1, advance_new := true }
      else
        .ok { s1 with advance_old := true }

/-- The body of the sweep loop with checked address operations. -/
def sweepBodyChk (s : SweepState) : Except Fault (SweepState × Bool) :=
  match pullOldChk s with
  | .error e => .error e
  | .ok s1 =>
    match pullNewChk s1 with
    | .error e => .error e
    | .ok s2 =>
      match s2.old_range, s2.new_range with
      | some o, some n =>
        match compareStepChk s2 o n with
        | .error e => .error e
        | .ok s3 => .ok (s3, false)
      | _, _ => .ok (s2, true)

/-- The sweep loop with checked address operations. -/
def sweepLoopChk : Nat → SweepState → Except Fault SweepState
  | 0, _ => .error .outOfFuel
  | fuel + 1, s =>
    if s.old_iter ≠ [] ∨ s.new_iter ≠ [] then
      match sweepBodyChk s with
      | .error e => .error e
      | .ok (s1, true) => .ok s1
      | .ok (s1, false) => sweepLoopChk fuel s1
    else .ok s

/-- The drain loop (lines 173-176) with checked address operations. -/
def drainLoopChk : Nat → List Range → Pool → Except Fault Pool
  | 0, _, _ => .error .outOfFuel
  | fuel + 1, old_iter, diff =>
    match getNextReducedRangeChk old_iter with
    | .error e => .error e
    | .ok (some r, it) => drainLoopChk fuel it (poolInsert r diff)
    | .ok (none, _) => .ok diff

/-- The function `find_diff` with checked address operations: it returns the pool computed
with exact integer arithmetic, or the fault `wrapped` when some address operation that the
source evaluates would wrap modulo `2^32`. -/
def find_diffChk (old_pool new_pool : Pool) : Except Fault Pool :=
  match sweepLoopChk (old_pool.length + new_pool.length + 1)
      (initState old_pool new_pool) with
  | .error e => .error e
  | .ok s =>
    match finalFlush s with
    | .error e => .error e
    | .ok diff => drainLoopChk (s.old_iter.length + 1) s.old_iter diff

/-- Every address held by the state is a `std::uint32_t` value. -/
structure StateBounded (s : SweepState) : Prop where
  bOld : Bounded s.old_iter
  bNew : Bounded s.new_iter
  bOldRange : ∀ o, s.old_range = some o → o.1 < U32 ∧ o.2 < U32
  bNewRange : ∀ n, s.new_range = some n → n.1 < U32 ∧ n.2 < U32


instance boundedDecidable (l : List Range) : Decidable (Bounded l) := by
  unfold Bounded; exact inferInstance

instance sortedFirstDecidable (l : List Range) : Decidable (SortedFirst l) := by
  unfold SortedFirst; exact inferInstance

/-- The pool `Pool{...}` built from a sequence of ranges: a `std::set<Range>` into which the
ranges are inserted one after the other. -/
def mkPool (l : List Range) : Pool :=
  l.foldl (fun p r => poolInsert r p) []

/-- The running `range_last` of `getNextReducedRange` after it has folded in the ranges of
`consumed`, starting from the last of the seed: the maximum of the lasts. -/
def maxLast (seed : Nat) (consumed : List Range) : Nat :=
  consumed.foldl (fun m r => max m r.2) seed

/-- The states in which `find_diff old_pool new_pool` tests the condition of its sweep loop:
the state at the entry, and the state after every execution of the body that does not
break. -/
inductive LoopHead (old_pool new_pool : Pool) : SweepState → Prop where
  | entry : LoopHead old_pool new_pool (initState old_pool new_pool)
  | next (s : SweepState) : LoopHead old_pool new_pool s →
      (s.old_iter ≠ [] ∨ s.new_iter ≠ []) → (sweepBody s).2 = false →
      LoopHead old_pool new_pool (sweepBody s).1

/-- The pending stretch lies inside the current old range: a present `noncovered_start`
comes with a present `old_range`, and
`old_range->first <= *noncovered_start <= old_range->second`. -/
def PendingInsideOld (s : SweepState) : Prop :=
  ∀ v, s.noncovered_start = some v → ∃ o, s.old_range = some o ∧ o.1 ≤ v ∧ v ≤ o.2

/-! ## The sequence of emitted ranges

The definitions below repeat the parts of `find_diff` that touch `diff`, with the operation
behind `diff.emplace` (lines 98, 132, 170) and `diff.insert` (line 175) as a parameter `ins`.
With `ins = poolInsert` this is `find_diff` itself. With `ins = logInsert`, which puts every
emitted range at the end of a list, the value of `diff` is the sequence of the emitted
ranges in the order of emission. -/

/-- Recording an emitted range: it is put at the end of the list of emitted ranges. -/
def logInsert (r : Range) (l : List Range) : List Range := l ++ [r]

/-- Lines 80-163 with the insertion into `diff` as a parameter. -/
def compareStepWith (ins : Range → Pool → Pool) (s : SweepState) (o n : Range) :
    SweepState :=
  if o.2 < n.1 then
    match s.noncovered_start with
    | some v =>
      { s with diff := ins (v, o.2) s.diff, noncovered_start := none, advance_old := true }
    | none => { s with advance_old := true }
  else if n.2 < o.1 then
    { s with advance_new := true }
  else
    let s1 : SweepState :=
      match s.noncovered_start with
      | some v =>
        if v < n.1 then
          { s with diff := ins (v, sub32 n.1 1) s.diff, noncovered_start := none }
        else { s with noncovered_start := none }
      | none => s
    if n.2 < o.2 then
      { s1 with noncovered_start := some (add32 n.2 1), advance_new := true }
    else
      { s1 with advance_old := true }

/-- The body of the sweep loop with the insertion into `diff` as a parameter. -/
def sweepBodyWith (ins : Range → Pool → Pool) (s : SweepState) : SweepState × Bool :=
  let s2 := pullNew (pullOld s)
  match s2.old_range, s2.new_range with
  | some o, some n => (compareStepWith ins s2 o n, false)
  | _, _ => (s2, true)

/-- The sweep loop with the insertion into `diff` as a parameter. -/
def sweepLoopWith (ins : Range → Pool → Pool) : Nat → SweepState → Except Fault SweepState
  | 0, _ => .error .outOfFuel
  | fuel + 1, s =>
    if s.old_iter ≠ [] ∨ s.new_iter ≠ [] then
      match sweepBodyWith ins s with
      | (s1, true) => .ok s1
      | (s1, false) => sweepLoopWith ins fuel s1
    else .ok s

/-- The final flush (lines 168-171) with the insertion into `diff` as a parameter. -/
def finalFlushWith (ins : Range → Pool → Pool) (s : SweepState) : Except Fault Pool :=
  match s.noncovered_start with
  | some v =>
    match s.old_range with
    | some o => .ok (ins (v, o.2) s.diff)
    | none => .error .nulloptDeref
  | none => .ok s.diff

/-- The drain loop (lines 173-176) with the insertion into `diff` as a parameter. -/
def drainLoopWith (ins : Range → Pool → Pool) : Nat → List Range → Pool → Except Fault Pool
  | 0, _, _ => .error .outOfFuel
  | fuel + 1, old_iter, diff =>
    match getNextReducedRange old_iter with
    | (some r, it) => drainLoopWith ins fuel it (ins r diff)
    | (none, _) => .ok diff

/-- The function `find_diff` with the insertion into `diff` as a parameter. -/
def find_diffWith (ins : Range → Pool → Pool) (old_pool new_pool : Pool) :
    Except Fault Pool :=
  match sweepLoopWith ins (old_pool.length + new_pool.length + 1)
      (initState old_pool new_pool) with
  | .error e => .error e
  | .ok s =>
    match finalFlushWith ins s with
    | .error e => .error e
    | .ok diff => drainLoopWith ins (s.old_iter.length + 1) s.old_iter diff

/-! # Proofs -/


/-! ## Machine arithmetic under its guards -/

theorem sub32_of_le {a b : Nat} (hb : b ≤ a) (ha : a < U32) : sub32 a b = a - b := by
  unfold sub32
  have h : a + U32 - b = (a - b) + U32 := by omega
  rw [h, Nat.add_mod_right]
  exact Nat.mod_eq_of_lt (by omega)

theorem add32_of_lt {a b : Nat} (h : a + b < U32) : add32 a b = a + b := by
  unfold add32
  exact Nat.mod_eq_of_lt h

theorem add32_lt (a b : Nat) : add32 a b < U32 := by
  unfold add32
  exact Nat.mod_lt _ (by unfold U32; omega)

theorem sub32_lt (a b : Nat) : sub32 a b < U32 := by
  unfold sub32
  exact Nat.mod_lt _ (by unfold U32; omega)

theorem break_cond_iff {c last : Nat} (hc : c < U32) :
    (c > last ∧ sub32 c last > 1) ↔ last + 1 < c := by
  constructor
  · rintro ⟨h1, h2⟩
    rw [sub32_of_le (Nat.le_of_lt h1) hc] at h2
    omega
  · intro h
    have h1 : last ≤ c := by omega
    refine ⟨by omega, ?_⟩
    rw [sub32_of_le h1 hc]
    omega

/-! ## Coverage -/

@[simp] theorem covered_nil (a : Nat) : ¬ covered a [] := by
  simp [covered]

@[simp] theorem covered_cons (a : Nat) (r : Range) (l : List Range) :
    covered a (r :: l) ↔ (r.1 ≤ a ∧ a ≤ r.2) ∨ covered a l := by
  simp [covered]

@[simp] theorem covered_append (a : Nat) (l1 l2 : List Range) :
    covered a (l1 ++ l2) ↔ covered a l1 ∨ covered a l2 := by
  simp only [covered, List.mem_append]
  constructor
  · rintro ⟨r, hr | hr, h⟩
    · exact Or.inl ⟨r, hr, h⟩
    · exact Or.inr ⟨r, hr, h⟩
  · rintro (⟨r, hr, h⟩ | ⟨r, hr, h⟩)
    · exact ⟨r, Or.inl hr, h⟩
    · exact ⟨r, Or.inr hr, h⟩

theorem covered_lt_of_bounded {a : Nat} {l : List Range} (hb : Bounded l)
    (h : covered a l) : a < U32 := by
  obtain ⟨r, hr, _, h2⟩ := h
  exact Nat.lt_of_le_of_lt h2 (hb r hr).2

/-! ## The reference normalization and `getNextReducedRange` -/

theorem reduceLoop_suffix (last : Nat) (rest : List Range) :
    (reduceLoop last rest).2 <:+ rest := by
  induction rest generalizing last with
  | nil => simp [reduceLoop]
  | cons c rest ih =>
    unfold reduceLoop
    split
    · exact List.suffix_refl _
    · exact (ih _).trans (List.suffix_cons c rest)

theorem reduceLoop_norm (first last : Nat) (rest : List Range) (hb : Bounded rest) :
    normAux first last rest
      = (first, (reduceLoop last rest).1) :: norm (reduceLoop last rest).2 := by
  induction rest generalizing last with
  | nil => simp [reduceLoop, normAux, norm]
  | cons c rest ih =>
    have hc : c.1 < U32 := (hb c (List.mem_cons_self _ _)).1
    have hrest : Bounded rest := fun r hr => hb r (List.mem_cons_of_mem _ hr)
    unfold reduceLoop normAux
    by_cases h : last + 1 < c.1
    · have h2 : c.1 > last ∧ sub32 c.1 last > 1 := (break_cond_iff hc).2 h
      rw [if_pos h, if_pos h2]
      simp [norm]
    · have h2 : ¬ (c.1 > last ∧ sub32 c.1 last > 1) := fun hh => h ((break_cond_iff hc).1 hh)
      rw [if_neg h, if_neg h2]
      exact ih _ hrest

theorem bounded_of_suffix {l1 l2 : List Range} (h : l1 <:+ l2) (hb : Bounded l2) :
    Bounded l1 := fun r hr => hb r (h.subset hr)

theorem reduceLoop_fst_lt (last : Nat) (rest : List Range) (hl : last < U32)
    (hb : Bounded rest) : (reduceLoop last rest).1 < U32 := by
  induction rest generalizing last with
  | nil => simpa [reduceLoop] using hl
  | cons c rest ih =>
    have hc := hb c (List.mem_cons_self _ _)
    have hrest : Bounded rest := fun r hr => hb r (List.mem_cons_of_mem _ hr)
    unfold reduceLoop
    split
    · exact hl
    · exact ih _ (max_lt hl hc.2) hrest

theorem getNext_nil : getNextReducedRange [] = (none, []) := rfl

theorem getNext_cons (c : Range) (rest : List Range) :
    getNextReducedRange (c :: rest)
      = (some (c.1, (reduceLoop c.2 rest).1), (reduceLoop c.2 rest).2) := rfl

theorem getNext_spec (c : Range) (rest : List Range) (hb : Bounded (c :: rest)) :
    ∃ r it, getNextReducedRange (c :: rest) = (some r, it) ∧
      norm (c :: rest) = r :: norm it ∧ it.length ≤ rest.length ∧ Bounded it ∧
      r.1 < U32 ∧ r.2 < U32 := by
  have hc := hb c (List.mem_cons_self _ _)
  have hrest : Bounded rest := fun r hr => hb r (List.mem_cons_of_mem _ hr)
  refine ⟨(c.1, (reduceLoop c.2 rest).1), (reduceLoop c.2 rest).2, rfl, ?_, ?_, ?_, hc.1, ?_⟩
  · exact reduceLoop_norm c.1 c.2 rest hrest
  · exact (reduceLoop_suffix c.2 rest).length_le
  · exact bounded_of_suffix (reduceLoop_suffix c.2 rest) hrest
  · exact reduceLoop_fst_lt c.2 rest hc.2 hrest

theorem normAux_spec (rest : List Range) :
    ∀ (f l : Nat), f ≤ l → (∀ c ∈ rest, f ≤ c.1) → SortedFirst rest → ValidPool rest →
      (∀ r ∈ normAux f l rest, r.1 ≤ r.2 ∧ f ≤ r.1) ∧
      (normAux f l rest).Pairwise (fun x y => x.2 + 1 < y.1) ∧
      ∀ a, covered a (normAux f l rest) ↔ (f ≤ a ∧ a ≤ l) ∨ covered a rest := by
  induction rest with
  | nil =>
    intro f l hfl _ _ _
    simp [normAux, hfl]
  | cons c rest ih =>
    intro f l hfl hge hs hv
    have hfc : f ≤ c.1 := hge c (List.mem_cons_self _ _)
    have hcv : c.1 ≤ c.2 := hv c (List.mem_cons_self _ _)
    have hs2 : SortedFirst rest := (List.pairwise_cons.1 hs).2
    have hcr : ∀ x ∈ rest, c.1 ≤ x.1 := (List.pairwise_cons.1 hs).1
    have hv2 : ValidPool rest := fun r hr => hv r (List.mem_cons_of_mem _ hr)
    unfold normAux
    by_cases h : l + 1 < c.1
    · rw [if_pos h]
      obtain ⟨A, B, C⟩ := ih c.1 c.2 hcv hcr hs2 hv2
      refine ⟨?_, ?_, ?_⟩
      · intro r hr
        rcases List.mem_cons.1 hr with rfl | hr
        · exact ⟨hfl, le_refl _⟩
        · exact ⟨(A r hr).1, le_trans hfc (A r hr).2⟩
      · refine List.pairwise_cons.2 ⟨?_, B⟩
        intro r hr
        have := (A r hr).2
        show l + 1 < r.1
        omega
      · intro a
        rw [covered_cons, C a, covered_cons]
    · rw [if_neg h]
      obtain ⟨A, B, C⟩ := ih f (max l c.2) (le_trans hfl (le_max_left _ _))
        (fun x hx => le_trans hfc (hcr x hx)) hs2 hv2
      refine ⟨A, B, ?_⟩
      intro a
      rw [C a, covered_cons]
      constructor
      · rintro (⟨h1, h2⟩ | h3)
        · by_cases ha : a ≤ l
          · exact Or.inl ⟨h1, ha⟩
          · refine Or.inr (Or.inl ⟨by omega, ?_⟩)
            rcases le_max_iff.1 h2 with h4 | h4
            · omega
            · exact h4
        · exact Or.inr (Or.inr h3)
      · rintro (⟨h1, h2⟩ | ⟨h1, h2⟩ | h3)
        · exact Or.inl ⟨h1, le_trans h2 (le_max_left _ _)⟩
        · exact Or.inl ⟨le_trans hfc h1, le_trans h2 (le_max_right _ _)⟩
        · exact Or.inr h3

theorem sortedFirst_of_isPool {p : Pool} (h : IsPool p) : SortedFirst p := by
  refine List.Pairwise.imp ?_ h.1
  intro a b hab
  rcases hab with h1 | ⟨h1, _⟩
  · exact Nat.le_of_lt h1
  · exact Nat.le_of_eq h1

theorem bounded_of_isPool {p : Pool} (h : IsPool p) : Bounded p := h.2

theorem norm_spec (l : List Range) (hs : SortedFirst l) (hv : ValidPool l) :
    Canon (norm l) ∧ ∀ a, covered a (norm l) ↔ covered a l := by
  cases l with
  | nil => simp [norm, Canon]
  | cons c rest =>
    have hcv : c.1 ≤ c.2 := hv c (List.mem_cons_self _ _)
    obtain ⟨A, B, C⟩ := normAux_spec rest c.1 c.2 hcv (List.pairwise_cons.1 hs).1
      (List.pairwise_cons.1 hs).2 (fun r hr => hv r (List.mem_cons_of_mem _ hr))
    refine ⟨⟨fun r hr => (A r hr).1, B⟩, ?_⟩
    intro a
    show covered a (normAux c.1 c.2 rest) ↔ _
    rw [C a, covered_cons]

theorem normAux_bounded (rest : List Range) :
    ∀ (f l : Nat), f < U32 → l < U32 → Bounded rest → Bounded (normAux f l rest) := by
  induction rest with
  | nil =>
    intro f l hf hl _ r hr
    simp only [normAux, List.mem_singleton] at hr
    subst hr
    exact ⟨hf, hl⟩
  | cons c rest ih =>
    intro f l hf hl hb
    have hc := hb c (List.mem_cons_self _ _)
    have hrest : Bounded rest := fun r hr => hb r (List.mem_cons_of_mem _ hr)
    unfold normAux
    split
    · intro r hr
      rcases List.mem_cons.1 hr with rfl | hr
      · exact ⟨hf, hl⟩
      · exact ih c.1 c.2 hc.1 hc.2 hrest r hr
    · exact ih f (max l c.2) hf (max_lt hl hc.2) hrest

theorem norm_bounded (l : List Range) (hb : Bounded l) : Bounded (norm l) := by
  cases l with
  | nil => intro r hr; simp [norm] at hr
  | cons c rest =>
    have hc := hb c (List.mem_cons_self _ _)
    exact normAux_bounded rest c.1 c.2 hc.1 hc.2 (fun r hr => hb r (List.mem_cons_of_mem _ hr))

theorem norm_length_le (l : List Range) : (norm l).length ≤ l.length := by
  have aux : ∀ (rest : List Range) (f x : Nat), (normAux f x rest).length ≤ rest.length + 1 := by
    intro rest
    induction rest with
    | nil => intro f x; simp [normAux]
    | cons c rest ih =>
      intro f x
      unfold normAux
      split
      · have := ih c.1 c.2
        simp only [List.length_cons]
        omega
      · have := ih f (max x c.2)
        simp only [List.length_cons]
        omega
  cases l with
  | nil => simp [norm]
  | cons c rest => exact aux rest c.1 c.2

/-! ## Canonical lists -/

theorem canon_nil : Canon [] := by
  simp [Canon]

theorem canon_cons {r : Range} {t : List Range} :
    Canon (r :: t) ↔ r.1 ≤ r.2 ∧ (∀ y ∈ t, r.2 + 1 < y.1) ∧ Canon t := by
  unfold Canon
  simp only [List.mem_cons, forall_eq_or_imp, List.pairwise_cons]
  tauto

theorem canon_append {d t : List Range} :
    Canon (d ++ t) ↔ Canon d ∧ Canon t ∧ ∀ x ∈ d, ∀ y ∈ t, x.2 + 1 < y.1 := by
  unfold Canon
  simp only [List.mem_append, List.pairwise_append]
  constructor
  · rintro ⟨h1, h2, h3, h4⟩
    exact ⟨⟨fun r hr => h1 r (Or.inl hr), h2⟩, ⟨fun r hr => h1 r (Or.inr hr), h3⟩, h4⟩
  · rintro ⟨⟨h1, h2⟩, ⟨h3, h4⟩, h5⟩
    exact ⟨fun r hr => hr.elim (h1 r) (h3 r), h2, h4, h5⟩

theorem canon_append_cons {d t : List Range} {r : Range} :
    Canon (d ++ r :: t) ↔
      Canon d ∧ Canon t ∧ r.1 ≤ r.2 ∧ (∀ x ∈ d, x.2 + 1 < r.1) ∧
        (∀ y ∈ t, r.2 + 1 < y.1) ∧ ∀ x ∈ d, ∀ y ∈ t, x.2 + 1 < y.1 := by
  rw [canon_append, canon_cons]
  simp only [List.mem_cons, forall_eq_or_imp]
  constructor
  · rintro ⟨h1, ⟨h2, h3, h4⟩, h5⟩
    exact ⟨h1, h4, h2, fun x hx => (h5 x hx).1, h3, fun x hx => (h5 x hx).2⟩
  · rintro ⟨h1, h2, h3, h4, h5, h6⟩
    exact ⟨h1, ⟨h3, h5, h2⟩, fun x hx => ⟨h4 x hx, h6 x hx⟩⟩

theorem canon_valid {l : List Range} (h : Canon l) : ValidPool l := h.1

theorem covered_gt_of_canon_cons {r : Range} {t : List Range} (h : Canon (r :: t))
    {a : Nat} (ha : covered a t) : r.2 + 1 < a := by
  obtain ⟨y, hy, h1, _⟩ := ha
  have := (canon_cons.1 h).2.1 y hy
  omega

theorem canon_tail {r : Range} {t : List Range} (h : Canon (r :: t)) : Canon t :=
  (canon_cons.1 h).2.2

/-- Two canonical lists that cover the same addresses are equal. -/
theorem canon_ext (l1 : List Range) :
    ∀ l2 : List Range, Canon l1 → Canon l2 → (∀ a, covered a l1 ↔ covered a l2) → l1 = l2 := by
  induction l1 with
  | nil =>
    intro l2 _ h2 hc
    cases l2 with
    | nil => rfl
    | cons r t =>
      have hv := (canon_cons.1 h2).1
      have : covered r.1 (r :: t) := (covered_cons _ _ _).2 (Or.inl ⟨le_refl _, hv⟩)
      exact absurd ((hc r.1).2 this) (covered_nil _)
  | cons r1 t1 ih =>
    intro l2 h1 h2 hc
    cases l2 with
    | nil =>
      have hv := (canon_cons.1 h1).1
      have : covered r1.1 (r1 :: t1) := (covered_cons _ _ _).2 (Or.inl ⟨le_refl _, hv⟩)
      exact absurd ((hc r1.1).1 this) (covered_nil _)
    | cons r2 t2 =>
      have hv1 := (canon_cons.1 h1).1
      have hv2 := (canon_cons.1 h2).1
      have g1 : ∀ a, covered a t1 → r1.2 + 1 < a := fun a => covered_gt_of_canon_cons h1
      have g2 : ∀ a, covered a t2 → r2.2 + 1 < a := fun a => covered_gt_of_canon_cons h2
      have hc1 : ∀ a, (r1.1 ≤ a ∧ a ≤ r1.2) ∨ covered a t1 ↔
          (r2.1 ≤ a ∧ a ≤ r2.2) ∨ covered a t2 := by
        intro a
        rw [← covered_cons, ← covered_cons]
        exact hc a
      have e1 : r1.1 = r2.1 := by
        have A : r2.1 ≤ r1.1 := by
          rcases (hc1 r1.1).1 (Or.inl ⟨le_refl _, hv1⟩) with h | h
          · exact h.1
          · have := g2 _ h
            omega
        have B : r1.1 ≤ r2.1 := by
          rcases (hc1 r2.1).2 (Or.inl ⟨le_refl _, hv2⟩) with h | h
          · exact h.1
          · have := g1 _ h
            omega
        omega
      have e2 : r1.2 = r2.2 := by
        have A : ¬ r1.2 < r2.2 := by
          intro hlt
          rcases (hc1 (r1.2 + 1)).2 (Or.inl ⟨by omega, by omega⟩) with h | h
          · omega
          · have := g1 _ h
            omega
        have B : ¬ r2.2 < r1.2 := by
          intro hlt
          rcases (hc1 (r2.2 + 1)).1 (Or.inl ⟨by omega, by omega⟩) with h | h
          · omega
          · have := g2 _ h
            omega
        omega
      have e : r1 = r2 := Prod.ext e1 e2
      subst e
      have ht : t1 = t2 := by
        refine ih t2 (canon_tail h1) (canon_tail h2) ?_
        intro a
        constructor
        · intro h
          have := g1 _ h
          rcases (hc1 a).1 (Or.inr h) with h3 | h3
          · omega
          · exact h3
        · intro h
          have := g2 _ h
          rcases (hc1 a).2 (Or.inr h) with h3 | h3
          · omega
          · exact h3
      rw [ht]

/-- A canonical list that covers no address is empty. -/
theorem canon_eq_nil {l : List Range} (h : Canon l) (hc : ∀ a, ¬ covered a l) : l = [] :=
  canon_ext l [] h canon_nil (fun a => ⟨fun h1 => absurd h1 (hc a), fun h1 => absurd h1 (covered_nil a)⟩)

theorem canonical_of_canon {l : List Range} (h : Canon l) : Canonical l := by
  refine ⟨h.1, ?_⟩
  induction l with
  | nil => intro q hq; simp at hq
  | cons r t ih =>
    obtain ⟨_, hgap, ht⟩ := canon_cons.1 h
    cases t with
    | nil => intro q hq; simp at hq
    | cons r2 t2 =>
      intro q hq
      simp only [List.tail_cons, List.zip_cons_cons, List.mem_cons] at hq
      rcases hq with rfl | hq
      · have := hgap r2 (List.mem_cons_self _ _)
        simp only
        omega
      · exact ih ht q (by simpa using hq)

theorem canon_of_canonical {l : List Range} (h : Canonical l) : Canon l := by
  induction l with
  | nil => exact canon_nil
  | cons r t ih =>
    have hv : ∀ x ∈ r :: t, x.1 ≤ x.2 := h.1
    have hz := h.2
    cases t with
    | nil =>
      exact canon_cons.2 ⟨hv r (List.mem_cons_self _ _), by intro y hy; simp at hy, canon_nil⟩
    | cons r2 t2 =>
      simp only [List.tail_cons, List.zip_cons_cons, List.mem_cons, forall_eq_or_imp] at hz
      have ht : Canonical (r2 :: t2) :=
        ⟨fun x hx => hv x (List.mem_cons_of_mem _ hx), by simpa using hz.2⟩
      have iht := ih ht
      have hr2 := canon_cons.1 iht
      refine canon_cons.2 ⟨hv r (List.mem_cons_self _ _), ?_, iht⟩
      intro y hy
      have h12 := hz.1
      simp only at h12
      rcases List.mem_cons.1 hy with rfl | hy
      · omega
      · have := hr2.2.1 y hy
        omega

/-! ## Insertion at the end of an ordered set -/

theorem poolInsert_append (r : Range) (d : Pool) (h : ∀ x ∈ d, rangeLt x r) :
    poolInsert r d = d ++ [r] := by
  induction d with
  | nil => rfl
  | cons x xs ih =>
    have hx : rangeLt x r := h x (List.mem_cons_self _ _)
    have hnot : ¬ rangeLt r x := by
      unfold rangeLt at hx ⊢
      omega
    unfold poolInsert
    rw [if_neg hnot, if_pos hx, ih (fun y hy => h y (List.mem_cons_of_mem _ hy))]
    rfl

theorem poolInsert_of_gap (r : Range) (d : Pool) (hd : ValidPool d)
    (h : ∀ x ∈ d, x.2 + 1 < r.1) : poolInsert r d = d ++ [r] := by
  refine poolInsert_append r d ?_
  intro x hx
  have h1 := hd x hx
  have h2 := h x hx
  unfold rangeLt
  omega

/-! ## The invariant of the sweep loop -/

theorem bounded_cons {r : Range} {t : List Range} :
    Bounded (r :: t) ↔ (r.1 < U32 ∧ r.2 < U32) ∧ Bounded t := by
  unfold Bounded
  simp only [List.mem_cons, forall_eq_or_imp]

theorem canon_snoc_assoc (d : List Range) (r : Range) (t : List Range) :
    (d ++ [r]) ++ t = d ++ r :: t := by
  simp

/-- The case analysis of lines 80-163 keeps the invariant, and sets exactly one flag. -/
theorem compare_core (O N : Pool) (oi ni : List Range) (o n : Range) (v : Nat) (d : Pool)
    (hc : SweepCore O N ⟨oi, ni, some o, some n, false, false, some v, d⟩) (hov : o.1 ≤ v)
    (hvn : v = o.1 ∨ v < n.1) :
    SweepCore O N (compareStep ⟨oi, ni, some o, some n, false, false, some v, d⟩ o n) ∧
    SweepFlags (compareStep ⟨oi, ni, some o, some n, false, false, some v, d⟩ o n) ∧
    (compareStep ⟨oi, ni, some o, some n, false, false, some v, d⟩ o n).old_iter = oi ∧
    (compareStep ⟨oi, ni, some o, some n, false, false, some v, d⟩ o n).new_iter = ni := by
  obtain ⟨bO, bN, bPO, bPN, cO, cN, cov⟩ := hc
  simp only [pendOld, pendNew] at bPO bPN cO cN cov
  obtain ⟨cd, cOR, hvo, hdg, hOg, hdO⟩ := canon_append_cons.1 cO
  obtain ⟨hn, hNg, cNR⟩ := canon_cons.1 cN
  obtain ⟨⟨hvU, hoU⟩, bOR⟩ := bounded_cons.1 bPO
  obtain ⟨⟨hn1U, hn2U⟩, bNR⟩ := bounded_cons.1 bPN
  simp only at hvo hdg hOg hvU hoU
  have gO : ∀ a, covered a (norm oi) → o.2 + 1 < a := by
    intro a ⟨y, hy, h1, _⟩
    have := hOg y hy
    omega
  have gN : ∀ a, covered a (norm ni) → n.2 + 1 < a := by
    intro a ⟨y, hy, h1, _⟩
    have := hNg y hy
    omega
  have ins : ∀ e, v ≤ e → poolInsert (v, e) d = d ++ [(v, e)] := fun e _ =>
    poolInsert_of_gap (v, e) d cd.1 hdg
  simp only [covered_cons] at cov
  by_cases h1 : o.2 < n.1
  · -- the old range is strictly before the new range
    have hs : compareStep ⟨oi, ni, some o, some n, false, false, some v, d⟩ o n
        = ⟨oi, ni, some o, some n, true, false, none, d ++ [(v, o.2)]⟩ := by
      simp [compareStep, h1, ins o.2 hvo]
    rw [hs]
    refine ⟨⟨bO, bN, ?_, ?_, ?_, ?_, ?_⟩, ⟨?_, ?_, ?_, ?_⟩, rfl, rfl⟩
    · simpa [pendOld] using bOR
    · simpa [pendNew] using bPN
    · simpa [pendOld] using cO
    · simpa [pendNew] using cN
    · intro a
      rw [cov a]
      simp only [pendOld, pendNew, covered_append, covered_cons, covered_nil, or_false]
      have g1 := gO a
      have g2 := gN a
      by_cases hD : covered a d <;> by_cases hP : covered a (norm oi) <;>
        by_cases hQ : covered a (norm ni) <;>
        simp only [hD, hP, hQ, true_or, or_true, false_or, or_false, not_true_eq_false,
          not_false_eq_true, and_true, and_false, true_and, false_and, not_or, iff_true,
                true_iff,
          false_iff, iff_false, false_imp_iff, true_imp_iff] at g1 g2 ⊢ <;>
        omega
    · intro _; rfl
    · intro h; simp at h
    · intro _; exact ⟨n, rfl⟩
    · exact Or.inl rfl
  · by_cases h2 : n.2 < o.1
    · -- the new range is strictly before the old range
      have hs : compareStep ⟨oi, ni, some o, some n, false, false, some v, d⟩ o n
          = ⟨oi, ni, some o, some n, false, true, some v, d⟩ := by
        simp [compareStep, h1, h2]
      rw [hs]
      refine ⟨⟨bO, bN, ?_, ?_, ?_, ?_, ?_⟩, ⟨?_, ?_, ?_, ?_⟩, rfl, rfl⟩
      · simpa [pendOld] using bPO
      · simpa [pendNew] using bNR
      · simpa [pendOld] using cO
      · simpa [pendNew] using cNR
      · intro a
        rw [cov a]
        simp only [pendOld, pendNew, covered_append, covered_cons, covered_nil, or_false]
        have g1 := gO a
        have g2 := gN a
        by_cases hD : covered a d <;> by_cases hP : covered a (norm oi) <;>
          by_cases hQ : covered a (norm ni) <;>
          simp only [hD, hP, hQ, true_or, or_true, false_or, or_false, not_true_eq_false,
            not_false_eq_true, and_true, and_false, true_and, false_and, not_or, iff_true,
                true_iff,
            false_iff, iff_false, false_imp_iff, true_imp_iff] at g1 g2 ⊢ <;>
          omega
      · intro h; simp at h
      · intro _
        refine ⟨o, v, rfl, rfl, hov, ?_⟩
        rcases hvn with h | h
        · exact Or.inl h
        · refine Or.inr ?_
          intro y hy
          have := hNg y (by simpa [pendNew] using hy)
          omega
      · intro h; simp at h
      · exact Or.inr rfl
    · -- the ranges intersect
      by_cases h3 : n.2 < o.2
      · have hadd : add32 n.2 1 = n.2 + 1 := add32_of_lt (by omega)
        by_cases h4 : v < n.1
        · have hsub : sub32 n.1 1 = n.1 - 1 := sub32_of_le (by omega) hn1U
          have hs : compareStep ⟨oi, ni, some o, some n, false, false, some v, d⟩ o n
              = ⟨oi, ni, some o, some n, false, true, some (n.2 + 1),
                  d ++ [(v, n.1 - 1)]⟩ := by
            simp [compareStep, h1, h2, h3, h4, hadd, hsub, ins (n.1 - 1) (by omega)]
          rw [hs]
          refine ⟨⟨bO, bN, ?_, ?_, ?_, ?_, ?_⟩, ⟨?_, ?_, ?_, ?_⟩, rfl, rfl⟩
          · simp only [pendOld]
            exact bounded_cons.2 ⟨⟨by simp only; omega, hoU⟩, bOR⟩
          · simpa [pendNew] using bNR
          · simp only [pendOld, canon_snoc_assoc]
            refine canon_append_cons.2 ⟨cd, canon_cons.2 ⟨by simp only; omega, hOg, cOR⟩,
              by simp only; omega, hdg, ?_, ?_⟩
            · intro y hy
              rcases List.mem_cons.1 hy with rfl | hy
              · simp only; omega
              · have := hOg y hy
                simp only; omega
            · intro x hx y hy
              have := hdg x hx
              rcases List.mem_cons.1 hy with rfl | hy
              · simp only; omega
              · have := hOg y hy
                omega
          · simpa [pendNew] using cNR
          · intro a
            rw [cov a]
            simp only [pendOld, pendNew, covered_append, covered_cons, covered_nil, or_false]
            have g1 := gO a
            have g2 := gN a
            by_cases hD : covered a d <;> by_cases hP : covered a (norm oi) <;>
              by_cases hQ : covered a (norm ni) <;>
              simp only [hD, hP, hQ, true_or, or_true, false_or, or_false, not_true_eq_false,
                not_false_eq_true, and_true, and_false, true_and, false_and, not_or, iff_true,
                true_iff,
                false_iff, iff_false, false_imp_iff, true_imp_iff] at g1 g2 ⊢ <;>
              omega
          · intro h; simp at h
          · intro _
            refine ⟨o, n.2 + 1, rfl, rfl, by omega, Or.inr ?_⟩
            intro y hy
            exact hNg y (by simpa [pendNew] using hy)
          · intro h; simp at h
          · exact Or.inr rfl
        · have hs : compareStep ⟨oi, ni, some o, some n, false, false, some v, d⟩ o n
              = ⟨oi, ni, some o, some n, false, true, some (n.2 + 1), d⟩ := by
            simp [compareStep, h1, h2, h3, h4, hadd]
          rw [hs]
          refine ⟨⟨bO, bN, ?_, ?_, ?_, ?_, ?_⟩, ⟨?_, ?_, ?_, ?_⟩, rfl, rfl⟩
          · simp only [pendOld]
            exact bounded_cons.2 ⟨⟨by simp only; omega, hoU⟩, bOR⟩
          · simpa [pendNew] using bNR
          · simp only [pendOld]
            refine canon_append_cons.2 ⟨cd, cOR, by simp only; omega, ?_, hOg, hdO⟩
            intro x hx
            have := hdg x hx
            simp only; omega
          · simpa [pendNew] using cNR
          · intro a
            rw [cov a]
            simp only [pendOld, pendNew, covered_append, covered_cons, covered_nil, or_false]
            have g1 := gO a
            have g2 := gN a
            by_cases hD : covered a d <;> by_cases hP : covered a (norm oi) <;>
              by_cases hQ : covered a (norm ni) <;>
              simp only [hD, hP, hQ, true_or, or_true, false_or, or_false, not_true_eq_false,
                not_false_eq_true, and_true, and_false, true_and, false_and, not_or, iff_true,
                true_iff,
                false_iff, iff_false, false_imp_iff, true_imp_iff] at g1 g2 ⊢ <;>
              omega
          · intro h; simp at h
          · intro _
            refine ⟨o, n.2 + 1, rfl, rfl, by omega, Or.inr ?_⟩
            intro y hy
            exact hNg y (by simpa [pendNew] using hy)
          · intro h; simp at h
          · exact Or.inr rfl
      · by_cases h4 : v < n.1
        · have hsub : sub32 n.1 1 = n.1 - 1 := sub32_of_le (by omega) hn1U
          have hs : compareStep ⟨oi, ni, some o, some n, false, false, some v, d⟩ o n
              = ⟨oi, ni, some o, some n, true, false, none, d ++ [(v, n.1 - 1)]⟩ := by
            simp [compareStep, h1, h2, h3, h4, hsub, ins (n.1 - 1) (by omega)]
          rw [hs]
          refine ⟨⟨bO, bN, ?_, ?_, ?_, ?_, ?_⟩, ⟨?_, ?_, ?_, ?_⟩, rfl, rfl⟩
          · simpa [pendOld] using bOR
          · simpa [pendNew] using bPN
          · simp only [pendOld, canon_snoc_assoc]
            refine canon_append_cons.2 ⟨cd, cOR, by simp only; omega, hdg, ?_, hdO⟩
            intro y hy
            have := hOg y hy
            simp only; omega
          · simpa [pendNew] using cN
          · intro a
            rw [cov a]
            simp only [pendOld, pendNew, covered_append, covered_cons, covered_nil, or_false]
            have g1 := gO a
            have g2 := gN a
            by_cases hD : covered a d <;> by_cases hP : covered a (norm oi) <;>
              by_cases hQ : covered a (norm ni) <;>
              simp only [hD, hP, hQ, true_or, or_true, false_or, or_false, not_true_eq_false,
                not_false_eq_true, and_true, and_false, true_and, false_and, not_or, iff_true,
                true_iff,
                false_iff, iff_false, false_imp_iff, true_imp_iff] at g1 g2 ⊢ <;>
              omega
          · intro _; rfl
          · intro h; simp at h
          · intro _; exact ⟨n, rfl⟩
          · exact Or.inl rfl
        · have hs : compareStep ⟨oi, ni, some o, some n, false, false, some v, d⟩ o n
              = ⟨oi, ni, some o, some n, true, false, none, d⟩ := by
            simp [compareStep, h1, h2, h3, h4]
          rw [hs]
          refine ⟨⟨bO, bN, ?_, ?_, ?_, ?_, ?_⟩, ⟨?_, ?_, ?_, ?_⟩, rfl, rfl⟩
          · simpa [pendOld] using bOR
          · simpa [pendNew] using bPN
          · simp only [pendOld]
            exact canon_append.2 ⟨cd, cOR, hdO⟩
          · simpa [pendNew] using cN
          · intro a
            rw [cov a]
            simp only [pendOld, pendNew, covered_append, covered_cons, covered_nil, or_false]
            have g1 := gO a
            have g2 := gN a
            by_cases hD : covered a d <;> by_cases hP : covered a (norm oi) <;>
              by_cases hQ : covered a (norm ni) <;>
              simp only [hD, hP, hQ, true_or, or_true, false_or, or_false, not_true_eq_false,
                not_false_eq_true, and_true, and_false, true_and, false_and, not_or, iff_true,
                true_iff,
                false_iff, iff_false, false_imp_iff, true_imp_iff] at g1 g2 ⊢
            omega
          · intro _; rfl
          · intro h; simp at h
          · intro _; exact ⟨n, rfl⟩
          · exact Or.inl rfl

theorem core_congr {O N : Pool} {s t : SweepState} (hc : SweepCore O N s)
    (hd : t.diff = s.diff) (hpo : pendOld t = pendOld s) (hpn : pendNew t = pendNew s)
    (hbo : Bounded t.old_iter) (hbn : Bounded t.new_iter) : SweepCore O N t := by
  obtain ⟨_, _, bPO, bPN, cO, cN, cov⟩ := hc
  refine ⟨hbo, hbn, ?_, ?_, ?_, ?_, ?_⟩
  · rw [hpo]; exact bPO
  · rw [hpn]; exact bPN
  · rw [hd, hpo]; exact cO
  · rw [hpn]; exact cN
  · rw [hd, hpo, hpn]; exact cov

/-- Lines 55-67 keep the invariant: the pending part of the old pool is the same list. -/
theorem pullOld_spec (O N : Pool) (s : SweepState) (hc : SweepCore O N s)
    (hf : SweepFlags s) :
    SweepCore O N (pullOld s) ∧ (pullOld s).advance_old = false ∧
    (pullOld s).advance_new = s.advance_new ∧ (pullOld s).new_range = s.new_range ∧
    (pullOld s).new_iter = s.new_iter ∧
    ((pullOld s).old_range = none →
      (pullOld s).noncovered_start = none ∧ pendOld (pullOld s) = []) ∧
    (∀ o, (pullOld s).old_range = some o →
      ∃ v, (pullOld s).noncovered_start = some v ∧ o.1 ≤ v ∧
        (v = o.1 ∨ ∀ y ∈ pendNew (pullOld s), v < y.1)) ∧
    (pullOld s).old_iter.length ≤ s.old_iter.length ∧
    (s.advance_old = true → (pullOld s).old_range ≠ none →
      (pullOld s).old_iter.length < s.old_iter.length) := by
  obtain ⟨oi, ni, orr, nr, ao, an, ns, d⟩ := s
  cases ao with
  | false =>
    obtain ⟨o, v, h1, h2, h3, h4⟩ := hf.flagCur rfl
    simp only at h1 h2
    subst h1 h2
    have hs : pullOld ⟨oi, ni, some o, nr, false, an, some v, d⟩
        = ⟨oi, ni, some o, nr, false, an, some v, d⟩ := by
      simp [pullOld]
    rw [hs]
    refine ⟨hc, rfl, rfl, rfl, rfl, ?_, ?_, le_refl _, ?_⟩
    · intro h; simp at h
    · intro o2 ho2
      simp only [Option.some.injEq] at ho2
      subst ho2
      exact ⟨v, rfl, h3, h4⟩
    · intro h; simp at h
  | true =>
    have hns : ns = none := hf.flagOld rfl
    subst hns
    cases oi with
    | nil =>
      have hs : pullOld ⟨[], ni, orr, nr, true, an, none, d⟩
          = ⟨[], ni, none, nr, false, an, none, d⟩ := by
        simp [pullOld, getNext_nil]
      rw [hs]
      refine ⟨?_, rfl, rfl, rfl, rfl, ?_, ?_, le_refl _, ?_⟩
      · refine core_congr hc rfl ?_ ?_ hc.bOld hc.bNew
        · cases orr <;> simp [pendOld]
        · simp [pendNew]
      · intro _
        exact ⟨rfl, by simp [pendOld, norm]⟩
      · intro o ho; simp at ho
      · intro _ h; simp at h
    | cons c rest =>
      obtain ⟨r, it, hg, hn, hlen, hb, hr1, hr2⟩ := getNext_spec c rest hc.bOld
      have hs : pullOld ⟨c :: rest, ni, orr, nr, true, an, none, d⟩
          = ⟨it, ni, some r, nr, false, an, some r.1, d⟩ := by
        simp [pullOld, hg]
      rw [hs]
      refine ⟨?_, rfl, rfl, rfl, rfl, ?_, ?_, ?_, ?_⟩
      · refine core_congr hc rfl ?_ ?_ hb hc.bNew
        · have : pendOld ⟨c :: rest, ni, orr, nr, true, an, none, d⟩ = norm (c :: rest) := by
            cases orr <;> simp [pendOld]
          rw [this, hn]
          simp [pendOld]
        · simp [pendNew]
      · intro h; simp at h
      · intro o ho
        simp only [Option.some.injEq] at ho
        subst ho
        exact ⟨r.1, rfl, le_refl _, Or.inl rfl⟩
      · simp only [List.length_cons]; omega
      · intro _ _
        simp only [List.length_cons]; omega

/-- Lines 69-73 keep the invariant: the pending part of the new pool is the same list. -/
theorem pullNew_spec (O N : Pool) (s : SweepState) (hc : SweepCore O N s)
    (hf : s.advance_new = false → ∃ n, s.new_range = some n) :
    SweepCore O N (pullNew s) ∧ (pullNew s).advance_new = false ∧
    (pullNew s).advance_old = s.advance_old ∧ (pullNew s).old_range = s.old_range ∧
    (pullNew s).old_iter = s.old_iter ∧ (pullNew s).noncovered_start = s.noncovered_start ∧
    pendOld (pullNew s) = pendOld s ∧ pendNew (pullNew s) = pendNew s ∧
    ((pullNew s).new_range = none → pendNew (pullNew s) = []) ∧
    (pullNew s).new_iter.length ≤ s.new_iter.length ∧
    (s.advance_new = true → (pullNew s).new_range ≠ none →
      (pullNew s).new_iter.length < s.new_iter.length) := by
  obtain ⟨oi, ni, orr, nr, ao, an, ns, d⟩ := s
  cases an with
  | false =>
    obtain ⟨n, h1⟩ := hf rfl
    simp only at h1
    subst h1
    have hs : pullNew ⟨oi, ni, orr, some n, ao, false, ns, d⟩
        = ⟨oi, ni, orr, some n, ao, false, ns, d⟩ := by
      simp [pullNew]
    rw [hs]
    refine ⟨hc, rfl, rfl, rfl, rfl, rfl, rfl, rfl, ?_, le_refl _, ?_⟩
    · intro h; simp at h
    · intro h; simp at h
  | true =>
    cases ni with
    | nil =>
      have hs : pullNew ⟨oi, [], orr, nr, ao, true, ns, d⟩
          = ⟨oi, [], orr, none, ao, false, ns, d⟩ := by
        simp [pullNew, getNext_nil]
      rw [hs]
      have hpo : pendOld ⟨oi, [], orr, none, ao, false, ns, d⟩
          = pendOld ⟨oi, [], orr, nr, ao, true, ns, d⟩ := rfl
      have hpn : pendNew ⟨oi, [], orr, none, ao, false, ns, d⟩
          = pendNew ⟨oi, [], orr, nr, ao, true, ns, d⟩ := by
        simp [pendNew]
      refine ⟨core_congr hc rfl hpo hpn hc.bOld hc.bNew, rfl, rfl, rfl, rfl, rfl, hpo, hpn,
        ?_, le_refl _, ?_⟩
      · intro _; simp [pendNew, norm]
      · intro _ h; simp at h
    | cons c rest =>
      obtain ⟨r, it, hg, hn, hlen, hb, hr1, hr2⟩ := getNext_spec c rest hc.bNew
      have hs : pullNew ⟨oi, c :: rest, orr, nr, ao, true, ns, d⟩
          = ⟨oi, it, orr, some r, ao, false, ns, d⟩ := by
        simp [pullNew, hg]
      rw [hs]
      have hpo : pendOld ⟨oi, it, orr, some r, ao, false, ns, d⟩
          = pendOld ⟨oi, c :: rest, orr, nr, ao, true, ns, d⟩ := rfl
      have hpn : pendNew ⟨oi, it, orr, some r, ao, false, ns, d⟩
          = pendNew ⟨oi, c :: rest, orr, nr, ao, true, ns, d⟩ := by
        simp [pendNew, hn]
      refine ⟨core_congr hc rfl hpo hpn hc.bOld hb, rfl, rfl, rfl, rfl, rfl, hpo, hpn,
        ?_, ?_, ?_⟩
      · intro h; simp at h
      · simp only [List.length_cons]; omega
      · intro _ _
        simp only [List.length_cons]; omega

/-- One execution of the loop body: either it breaks, and the exit condition holds, or it
keeps the invariant and consumes at least one element of one of the pools. -/
theorem sweepBody_spec (O N : Pool) (s : SweepState) (hc : SweepCore O N s)
    (hf : SweepFlags s) :
    ((sweepBody s).2 = true → SweepDone O N (sweepBody s).1) ∧
    ((sweepBody s).2 = false →
      SweepCore O N (sweepBody s).1 ∧ SweepFlags (sweepBody s).1 ∧
      (sweepBody s).1.old_iter.length + (sweepBody s).1.new_iter.length
        < s.old_iter.length + s.new_iter.length) := by
  obtain ⟨c1, a1, a2, a3, a4, a5, a6, a7, a8⟩ := pullOld_spec O N s hc hf
  have hfn : (pullOld s).advance_new = false → ∃ n, (pullOld s).new_range = some n := by
    intro h
    rw [a2] at h
    rw [a3]
    exact hf.flagNew h
  obtain ⟨c2, b1, b2, b3, b4, b5, b6, b7, b8, b9, b10⟩ := pullNew_spec O N (pullOld s) c1 hfn
  have hlen : (pullNew (pullOld s)).old_range ≠ none → (pullNew (pullOld s)).new_range ≠ none →
      (pullNew (pullOld s)).old_iter.length + (pullNew (pullOld s)).new_iter.length
        < s.old_iter.length + s.new_iter.length := by
    intro h1 h2
    rw [b4]
    rw [b3] at h1
    rw [a4] at b9 b10
    rw [a2] at b10
    rcases hf.flagAny with h | h
    · have := a8 h h1
      omega
    · have := b10 h h2
      omega
  have hmid : ∀ o, (pullNew (pullOld s)).old_range = some o →
      ∃ v, (pullNew (pullOld s)).noncovered_start = some v ∧ o.1 ≤ v ∧
        (v = o.1 ∨ ∀ y ∈ pendNew (pullNew (pullOld s)), v < y.1) := by
    intro o ho
    rw [b3] at ho
    rw [b5, b7]
    exact a6 o ho
  have hnone : (pullNew (pullOld s)).old_range = none →
      (pullNew (pullOld s)).noncovered_start = none ∧ pendOld (pullNew (pullOld s)) = [] := by
    intro h
    rw [b3] at h
    rw [b5, b6]
    exact a5 h
  have hao : (pullNew (pullOld s)).advance_old = false := by rw [b2]; exact a1
  unfold sweepBody
  generalize pullNew (pullOld s) = s2 at *
  obtain ⟨oi, ni, orr, nr, ao, an, ns, d⟩ := s2
  simp only at b1 hao hlen hmid hnone b8
  subst b1 hao
  cases orr with
  | none =>
    obtain ⟨h1, h2⟩ := hnone rfl
    subst h1
    refine ⟨fun _ => ?_, fun h => by simp at h⟩
    refine ⟨c2.bOld, c2.canonOld, ?_, ?_⟩
    · intro a
      rw [c2.cover a, covered_append, h2]
      simp
    · intro v hv; simp at hv
  | some o =>
    obtain ⟨v, h1, h2, h3⟩ := hmid o rfl
    subst h1
    cases nr with
    | none =>
      have h4 := b8 rfl
      refine ⟨fun _ => ?_, fun h => by simp at h⟩
      refine ⟨c2.bOld, c2.canonOld, ?_, ?_⟩
      · intro a
        rw [c2.cover a, covered_append, h4]
        simp
      · intro _ _; exact ⟨o, rfl⟩
    | some n =>
      refine ⟨fun h => by simp at h, fun _ => ?_⟩
      have h3b : v = o.1 ∨ v < n.1 := by
        rcases h3 with h | h
        · exact Or.inl h
        · exact Or.inr (h n (by simp [pendNew]))
      obtain ⟨e1, e2, e3, e4⟩ := compare_core O N oi ni o n v d c2 h2 h3b
      refine ⟨e1, e2, ?_⟩
      show (compareStep _ o n).old_iter.length + (compareStep _ o n).new_iter.length < _
      rw [e3, e4]
      exact hlen (by simp) (by simp)

theorem initState_core (O N : Pool) (hO : IsPool O) (hN : IsPool N) (hvO : ValidPool O)
    (hvN : ValidPool N) : SweepCore O N (initState O N) ∧ SweepFlags (initState O N) := by
  obtain ⟨cO, covO⟩ := norm_spec O (sortedFirst_of_isPool hO) hvO
  obtain ⟨cN, covN⟩ := norm_spec N (sortedFirst_of_isPool hN) hvN
  refine ⟨⟨hO.2, hN.2, ?_, ?_, ?_, ?_, ?_⟩, ⟨?_, ?_, ?_, ?_⟩⟩
  · simpa [initState, pendOld] using norm_bounded O hO.2
  · simpa [initState, pendNew] using norm_bounded N hN.2
  · simpa [initState, pendOld] using cO
  · simpa [initState, pendNew] using cN
  · intro a
    simp [initState, pendOld, pendNew, covO a, covN a]
  · intro _; rfl
  · intro h; simp [initState] at h
  · intro h; simp [initState] at h
  · exact Or.inl rfl

/-- The sweep loop ends within its fuel, in a state where the exit condition holds. -/
theorem sweepLoop_spec (O N : Pool) :
    ∀ (fuel : Nat) (s : SweepState), SweepCore O N s → SweepFlags s →
      s.old_iter.length + s.new_iter.length < fuel →
      ∃ s1, sweepLoop fuel s = .ok s1 ∧ SweepDone O N s1 := by
  intro fuel
  induction fuel with
  | zero => intro s _ _ h; omega
  | succ fuel ih =>
    intro s hc hf hlen
    unfold sweepLoop
    by_cases hcond : s.old_iter ≠ [] ∨ s.new_iter ≠ []
    · rw [if_pos hcond]
      obtain ⟨hbrk, hcont⟩ := sweepBody_spec O N s hc hf
      rcases hb : sweepBody s with ⟨s1, b⟩
      rw [hb] at hbrk hcont
      cases b with
      | true => exact ⟨s1, rfl, hbrk rfl⟩
      | false =>
        obtain ⟨h1, h2, h3⟩ := hcont rfl
        exact ih s1 h1 h2 (by simp only at h3; omega)
    · rw [if_neg hcond]
      refine ⟨s, rfl, ?_⟩
      have ho : s.old_iter = [] := by
        by_contra h; exact hcond (Or.inl h)
      have hn : s.new_iter = [] := by
        by_contra h; exact hcond (Or.inr h)
      obtain ⟨oi, ni, orr, nr, ao, an, ns, d⟩ := s
      simp only at ho hn
      subst ho hn
      refine ⟨hc.bOld, hc.canonOld, ?_, ?_⟩
      · intro a
        rw [hc.cover a, covered_append]
        cases ao with
        | true =>
          have := hf.flagOld rfl
          simp only at this
          subst this
          have hp : pendOld ⟨[], [], orr, nr, true, an, none, d⟩ = [] := by
            cases orr <;> simp [pendOld, norm]
          rw [hp]
          simp
        | false =>
          have han : an = true := by
            rcases hf.flagAny with h | h
            · simp at h
            · exact h
          subst han
          have hp : pendNew ⟨[], [], orr, nr, false, true, ns, d⟩ = [] := by
            simp [pendNew, norm]
          rw [hp]
          simp
      · intro v hv
        cases ao with
        | true =>
          have := hf.flagOld rfl
          simp only at this hv
          rw [this] at hv
          simp at hv
        | false =>
          obtain ⟨o, _, h1, _⟩ := hf.flagCur rfl
          exact ⟨o, h1⟩

/-- The drain loop (lines 173-176) appends the reduced ranges that are left. -/
theorem drainLoop_spec :
    ∀ (fuel : Nat) (it : List Range) (dd : Pool), Bounded it → Canon (dd ++ norm it) →
      it.length < fuel → drainLoop fuel it dd = .ok (dd ++ norm it) := by
  intro fuel
  induction fuel with
  | zero => intro it dd _ _ h; omega
  | succ fuel ih =>
    intro it dd hb hc hlen
    cases it with
    | nil => simp [drainLoop, getNext_nil, norm]
    | cons c rest =>
      obtain ⟨r, it1, hg, hn, hl, hb1, _, _⟩ := getNext_spec c rest hb
      rw [hn] at hc
      obtain ⟨cd, _, _, hgap, _, _⟩ := canon_append_cons.1 hc
      have hins : poolInsert r dd = dd ++ [r] := poolInsert_of_gap r dd cd.1 hgap
      unfold drainLoop
      rw [hg]
      simp only
      rw [hins, hn, ih it1 (dd ++ [r]) hb1 (by simpa using hc)
        (by simp only [List.length_cons] at hlen; omega)]
      simp

/-- Repeated calls of `getNextReducedRange` produce the reference normalization. -/
theorem normalizeLoop_spec :
    ∀ (fuel : Nat) (it : List Range), Bounded it → it.length < fuel →
      normalizeLoop fuel it = .ok (norm it) := by
  intro fuel
  induction fuel with
  | zero => intro it _ h; omega
  | succ fuel ih =>
    intro it hb hlen
    cases it with
    | nil => simp [normalizeLoop, getNext_nil, norm]
    | cons c rest =>
      obtain ⟨r, it1, hg, hn, hl, hb1, _, _⟩ := getNext_spec c rest hb
      unfold normalizeLoop
      rw [hg]
      simp only
      rw [ih it1 hb1 (by simp only [List.length_cons] at hlen; omega), hn]

theorem normalize_eq_norm (p : Pool) (hb : Bounded p) : normalize p = .ok (norm p) :=
  normalizeLoop_spec (p.length + 1) p hb (Nat.lt_succ_self _)

/-- The last two steps of `find_diff` return the emitted ranges followed by the pending part
of the old pool. -/
theorem finish_spec (O N : Pool) (s : SweepState) (h : SweepDone O N s) :
    ∃ diff, finalFlush s = .ok diff ∧
      drainLoop (s.old_iter.length + 1) s.old_iter diff = .ok (s.diff ++ pendOld s) := by
  obtain ⟨oi, ni, orr, nr, ao, an, ns, d⟩ := s
  obtain ⟨hb, hc, _, hderef⟩ := h
  cases ns with
  | none =>
    have hp : pendOld ⟨oi, ni, orr, nr, ao, an, none, d⟩ = norm oi := by
      cases orr <;> simp [pendOld]
    rw [hp] at hc ⊢
    exact ⟨d, by simp [finalFlush], drainLoop_spec _ oi d hb hc (Nat.lt_succ_self _)⟩
  | some v =>
    obtain ⟨o, ho⟩ := hderef v rfl
    simp only at ho
    subst ho
    simp only [pendOld] at hc ⊢
    obtain ⟨cd, _, _, hgap, _, _⟩ := canon_append_cons.1 hc
    have hins : poolInsert (v, o.2) d = d ++ [(v, o.2)] :=
      poolInsert_of_gap (v, o.2) d cd.1 hgap
    refine ⟨d ++ [(v, o.2)], by simp [finalFlush, hins], ?_⟩
    rw [drainLoop_spec _ oi (d ++ [(v, o.2)]) hb (by simpa using hc) (Nat.lt_succ_self _)]
    simp

/-- The result of `find_diff` on valid pools: it returns a pool, which is canonical and
covers exactly the addresses of the old pool that the new pool does not cover. -/
theorem find_diff_spec (O N : Pool) (hO : IsPool O) (hN : IsPool N) (hvO : ValidPool O)
    (hvN : ValidPool N) :
    ∃ r, find_diff O N = .ok r ∧ Canon r ∧
      ∀ a, covered a r ↔ (covered a O ∧ ¬ covered a N) := by
  obtain ⟨hc, hf⟩ := initState_core O N hO hN hvO hvN
  obtain ⟨s1, hs1, hdone⟩ := sweepLoop_spec O N (O.length + N.length + 1) (initState O N) hc hf
    (by simp [initState])
  obtain ⟨diff, hfl, hdr⟩ := finish_spec O N s1 hdone
  refine ⟨s1.diff ++ pendOld s1, ?_, hdone.canonOld, fun a => (hdone.cover a).symm⟩
  unfold find_diff
  rw [hs1]
  simp only
  rw [hfl]
  simp only
  exact hdr

/-! ## No address operation wraps -/

theorem reduceLoopChk_eq (rest : List Range) (hb : Bounded rest) :
    ∀ last : Nat, reduceLoopChk last rest = .ok (reduceLoop last rest) := by
  induction rest with
  | nil => intro last; rfl
  | cons c rest ih =>
    intro last
    have hc : c.1 < U32 := (hb c (List.mem_cons_self _ _)).1
    have hrest : Bounded rest := fun r hr => hb r (List.mem_cons_of_mem _ hr)
    unfold reduceLoopChk reduceLoop
    by_cases h : c.1 > last
    · have hle : last ≤ c.1 := Nat.le_of_lt h
      have hsub : sub32 c.1 last = c.1 - last := sub32_of_le hle hc
      rw [if_pos h]
      simp only [sub32Chk, if_pos hle, hsub]
      by_cases h2 : c.1 - last > 1
      · rw [if_pos h2, if_pos ⟨h, h2⟩]
      · rw [if_neg h2, if_neg (fun hh => h2 hh.2)]
        exact ih hrest _
    · rw [if_neg h, if_neg (fun hh => h hh.1)]
      exact ih hrest _

theorem getNextChk_eq (cur : List Range) (hb : Bounded cur) :
    getNextReducedRangeChk cur = .ok (getNextReducedRange cur) := by
  cases cur with
  | nil => rfl
  | cons c rest =>
    have hrest : Bounded rest := fun r hr => hb r (List.mem_cons_of_mem _ hr)
    unfold getNextReducedRangeChk getNextReducedRange
    simp only [reduceLoopChk_eq rest hrest]

theorem getNext_bounded (cur : List Range) (hb : Bounded cur) :
    Bounded (getNextReducedRange cur).2 ∧
      ∀ r, (getNextReducedRange cur).1 = some r → r.1 < U32 ∧ r.2 < U32 := by
  cases cur with
  | nil =>
    refine ⟨by simpa [getNext_nil] using hb, ?_⟩
    intro r hr
    simp [getNext_nil] at hr
  | cons c rest =>
    obtain ⟨r, it, hg, _, _, hbit, h1, h2⟩ := getNext_spec c rest hb
    rw [hg]
    refine ⟨hbit, ?_⟩
    intro r2 hr2
    simp only [Option.some.injEq] at hr2
    subst hr2
    exact ⟨h1, h2⟩

theorem pullOldChk_eq (s : SweepState) (hs : StateBounded s) :
    pullOldChk s = .ok (pullOld s) ∧ StateBounded (pullOld s) := by
  obtain ⟨b1, b2, b3, b4⟩ := hs
  obtain ⟨g1, g2⟩ := getNext_bounded s.old_iter b1
  unfold pullOldChk pullOld
  by_cases h : s.advance_old = true
  · rw [if_pos h, if_pos h, getNextChk_eq s.old_iter b1]
    rcases hg : getNextReducedRange s.old_iter with ⟨r, it⟩
    rw [hg] at g1 g2
    cases r with
    | none => exact ⟨rfl, ⟨g1, b2, fun o ho => by simp at ho, b4⟩⟩
    | some r =>
      refine ⟨rfl, ⟨g1, b2, ?_, b4⟩⟩
      intro o ho
      simp only [Option.some.injEq] at ho
      subst ho
      exact g2 r rfl
  · rw [if_neg h, if_neg h]
    exact ⟨rfl, ⟨b1, b2, b3, b4⟩⟩

theorem pullNewChk_eq (s : SweepState) (hs : StateBounded s) :
    pullNewChk s = .ok (pullNew s) ∧ StateBounded (pullNew s) := by
  obtain ⟨b1, b2, b3, b4⟩ := hs
  obtain ⟨g1, g2⟩ := getNext_bounded s.new_iter b2
  unfold pullNewChk pullNew
  by_cases h : s.advance_new = true
  · rw [if_pos h, if_pos h, getNextChk_eq s.new_iter b2]
    exact ⟨rfl, ⟨b1, g1, b3, g2⟩⟩
  · rw [if_neg h, if_neg h]
    exact ⟨rfl, ⟨b1, b2, b3, b4⟩⟩

theorem compareStepChk_eq (s : SweepState) (o n : Range) (hs : StateBounded s)
    (ho : o.2 < U32) (hn : n.1 < U32) :
    compareStepChk s o n = .ok (compareStep s o n) ∧ StateBounded (compareStep s o n) := by
  obtain ⟨b1, b2, b3, b4⟩ := hs
  unfold compareStepChk compareStep flushBeforeChk
  by_cases h1 : o.2 < n.1
  · rw [if_pos h1, if_pos h1]
    cases hv : s.noncovered_start with
    | none => exact ⟨rfl, ⟨b1, b2, b3, b4⟩⟩
    | some v => exact ⟨rfl, ⟨b1, b2, b3, b4⟩⟩
  · rw [if_neg h1, if_neg h1]
    by_cases h2 : n.2 < o.1
    · rw [if_pos h2, if_pos h2]
      exact ⟨rfl, ⟨b1, b2, b3, b4⟩⟩
    · rw [if_neg h2, if_neg h2]
      have hadd : n.2 < o.2 → add32Chk n.2 1 = .ok (add32 n.2 1) := by
        intro h3
        have : n.2 + 1 < U32 := by omega
        simp only [add32Chk, if_pos this, add32_of_lt this]
      have hsub : ∀ v, v < n.1 → sub32Chk n.1 1 = .ok (sub32 n.1 1) := by
        intro v hv
        have : 1 ≤ n.1 := by omega
        simp only [sub32Chk, if_pos this, sub32_of_le this hn]
      cases hv : s.noncovered_start with
      | none =>
        simp only
        by_cases h3 : n.2 < o.2
        · rw [if_pos h3, if_pos h3, hadd h3]
          exact ⟨rfl, ⟨b1, b2, b3, b4⟩⟩
        · rw [if_neg h3, if_neg h3]
          exact ⟨rfl, ⟨b1, b2, b3, b4⟩⟩
      | some v =>
        simp only
        by_cases h4 : v < n.1
        · rw [if_pos h4, if_pos h4, hsub v h4]
          simp only
          by_cases h3 : n.2 < o.2
          · rw [if_pos h3, if_pos h3, hadd h3]
            exact ⟨rfl, ⟨b1, b2, b3, b4⟩⟩
          · rw [if_neg h3, if_neg h3]
            exact ⟨rfl, ⟨b1, b2, b3, b4⟩⟩
        · rw [if_neg h4, if_neg h4]
          simp only
          by_cases h3 : n.2 < o.2
          · rw [if_pos h3, if_pos h3, hadd h3]
            exact ⟨rfl, ⟨b1, b2, b3, b4⟩⟩
          · rw [if_neg h3, if_neg h3]
            exact ⟨rfl, ⟨b1, b2, b3, b4⟩⟩

theorem sweepBodyChk_eq (s : SweepState) (hs : StateBounded s) :
    sweepBodyChk s = .ok (sweepBody s) ∧ StateBounded (sweepBody s).1 := by
  obtain ⟨e1, hb1⟩ := pullOldChk_eq s hs
  obtain ⟨e2, hb2⟩ := pullNewChk_eq (pullOld s) hb1
  unfold sweepBodyChk sweepBody
  rw [e1]
  simp only
  rw [e2]
  simp only
  generalize pullNew (pullOld s) = s2 at *
  cases ho : s2.old_range with
  | none => exact ⟨rfl, hb2⟩
  | some o =>
    cases hn : s2.new_range with
    | none => exact ⟨rfl, hb2⟩
    | some n =>
      obtain ⟨e3, hb3⟩ := compareStepChk_eq s2 o n hb2 (hb2.bOldRange o ho).2
        (hb2.bNewRange n hn).1
      simp only
      rw [e3]
      exact ⟨rfl, hb3⟩

theorem sweepLoopChk_eq :
    ∀ (fuel : Nat) (s : SweepState), StateBounded s →
      sweepLoopChk fuel s = sweepLoop fuel s ∧
        ∀ s1, sweepLoop fuel s = .ok s1 → StateBounded s1 := by
  intro fuel
  induction fuel with
  | zero =>
    intro s _
    refine ⟨rfl, ?_⟩
    intro s1 h
    simp [sweepLoop] at h
  | succ fuel ih =>
    intro s hs
    obtain ⟨e, hb⟩ := sweepBodyChk_eq s hs
    unfold sweepLoopChk sweepLoop
    by_cases hcond : s.old_iter ≠ [] ∨ s.new_iter ≠ []
    · rw [if_pos hcond, if_pos hcond, e]
      rcases hbody : sweepBody s with ⟨s1, b⟩
      rw [hbody] at hb
      cases b with
      | true =>
        refine ⟨rfl, ?_⟩
        intro s2 h2
        simp only [Except.ok.injEq] at h2
        subst h2
        exact hb
      | false => exact ih s1 hb
    · rw [if_neg hcond, if_neg hcond]
      refine ⟨rfl, ?_⟩
      intro s2 h2
      simp only [Except.ok.injEq] at h2
      subst h2
      exact hs

theorem drainLoopChk_eq :
    ∀ (fuel : Nat) (it : List Range) (d : Pool), Bounded it →
      drainLoopChk fuel it d = drainLoop fuel it d := by
  intro fuel
  induction fuel with
  | zero => intro it d _; rfl
  | succ fuel ih =>
    intro it d hb
    obtain ⟨g1, _⟩ := getNext_bounded it hb
    unfold drainLoopChk drainLoop
    rw [getNextChk_eq it hb]
    rcases hg : getNextReducedRange it with ⟨r, it1⟩
    rw [hg] at g1
    cases r with
    | none => rfl
    | some r => exact ih it1 _ g1

/-- With checked address operations `find_diff` computes the same, on all pools. -/
theorem find_diffChk_eq (O N : Pool) (hO : Bounded O) (hN : Bounded N) :
    find_diffChk O N = find_diff O N := by
  have hinit : StateBounded (initState O N) :=
    ⟨hO, hN, fun o ho => by simp [initState] at ho, fun n hn => by simp [initState] at hn⟩
  obtain ⟨e, hb⟩ := sweepLoopChk_eq (O.length + N.length + 1) (initState O N) hinit
  unfold find_diffChk find_diff
  rw [e]
  cases hs : sweepLoop (O.length + N.length + 1) (initState O N) with
  | error err => rfl
  | ok s =>
    simp only
    cases hf : finalFlush s with
    | error err => rfl
    | ok diff =>
      simp only
      exact drainLoopChk_eq _ _ _ (hb s hs).bOld

/-! ## Consequences of the specification of `find_diff` -/

/-- On valid pools `find_diff` returns the one canonical list that covers the difference. -/
theorem find_diff_eq_of_cover (O N : Pool) (hO : IsPool O) (hN : IsPool N)
    (hvO : ValidPool O) (hvN : ValidPool N) (l : List Range) (hl : Canon l)
    (hcov : ∀ a, covered a l ↔ (covered a O ∧ ¬ covered a N)) : find_diff O N = .ok l := by
  obtain ⟨r, hr, hc, hcover⟩ := find_diff_spec O N hO hN hvO hvN
  have : r = l := canon_ext r l hc hl (fun a => by rw [hcover a, hcov a])
  rw [hr, this]

theorem find_diff_eq_norm_of_disjoint (O N : Pool) (hO : IsPool O) (hN : IsPool N)
    (hvO : ValidPool O) (hvN : ValidPool N) (hdis : ∀ a, ¬ (covered a O ∧ covered a N)) :
    find_diff O N = .ok (norm O) ∧ normalize O = .ok (norm O) := by
  obtain ⟨cO, covO⟩ := norm_spec O (sortedFirst_of_isPool hO) hvO
  refine ⟨find_diff_eq_of_cover O N hO hN hvO hvN (norm O) cO ?_, normalize_eq_norm O hO.2⟩
  intro a
  rw [covO a]
  constructor
  · intro h
    exact ⟨h, fun hn => hdis a ⟨h, hn⟩⟩
  · intro h
    exact h.1

theorem find_diff_eq_nil_of_subset (O N : Pool) (hO : IsPool O) (hN : IsPool N)
    (hvO : ValidPool O) (hvN : ValidPool N) (hsub : ∀ a, covered a O → covered a N) :
    find_diff O N = .ok [] := by
  refine find_diff_eq_of_cover O N hO hN hvO hvN [] canon_nil ?_
  intro a
  constructor
  · intro h
    exact absurd h (covered_nil a)
  · rintro ⟨h1, h2⟩
    exact absurd (hsub a h1) h2

/-! ## The claims -/

/-- Claim C1. For valid pools `O` and `N`, `find_diff` returns a pool, and an address `a` of
the 32-bit domain is covered by a range of that pool if and only if it is covered by a
range of `O` and by no range of `N`. -/
theorem C1_find_diff_covers_difference (O N : Pool) (hO : IsPool O) (hN : IsPool N)
    (hvO : ValidPool O) (hvN : ValidPool N) :
    ∃ r, find_diff O N = .ok r ∧
      ∀ a, a < U32 → (covered a r ↔ (covered a O ∧ ¬ covered a N)) := by
  obtain ⟨r, hr, _, hcover⟩ := find_diff_spec O N hO hN hvO hvN
  exact ⟨r, hr, fun a _ => hcover a⟩

/-- The theorem of claim C1 at a concrete input, its hypotheses checked there. -/
theorem C1_witness :
    IsPool [(3, 14), (20, 4294967295)] ∧ IsPool [(0, 2), (7, 12)] ∧
    ValidPool [(3, 14), (20, 4294967295)] ∧ ValidPool [(0, 2), (7, 12)] ∧
    ∃ r, find_diff [(3, 14), (20, 4294967295)] [(0, 2), (7, 12)] = .ok r ∧
      ∀ a, a < U32 → (covered a r ↔
        (covered a [(3, 14), (20, 4294967295)] ∧ ¬ covered a [(0, 2), (7, 12)])) :=
  ⟨by decide, by decide, by decide, by decide,
    C1_find_diff_covers_difference [(3, 14), (20, 4294967295)] [(0, 2), (7, 12)]
      (by decide) (by decide) (by decide) (by decide)⟩

/-- Claim C2. For valid pools `O` and `N`, the pool returned by `find_diff` is in canonical
form: every range has `first <= last`, and two consecutive ranges `(a,b)`, `(c,d)` of the
result satisfy `c > b` and `c - b > 1`. -/
theorem C2_find_diff_canonical (O N : Pool) (hO : IsPool O) (hN : IsPool N)
    (hvO : ValidPool O) (hvN : ValidPool N) :
    ∃ r, find_diff O N = .ok r ∧ Canonical r := by
  obtain ⟨r, hr, hc, _⟩ := find_diff_spec O N hO hN hvO hvN
  exact ⟨r, hr, canonical_of_canon hc⟩

/-- The theorem of claim C2 at a concrete input, its hypotheses checked there. -/
theorem C2_witness :
    IsPool [(0, 0), (0, 1), (10, 50), (100, 4294967295)] ∧ IsPool [(11, 49), (60, 200)] ∧
    ValidPool [(0, 0), (0, 1), (10, 50), (100, 4294967295)] ∧
    ValidPool [(11, 49), (60, 200)] ∧
    ∃ r, find_diff [(0, 0), (0, 1), (10, 50), (100, 4294967295)] [(11, 49), (60, 200)]
      = .ok r ∧ Canonical r :=
  ⟨by decide, by decide, by decide, by decide,
    C2_find_diff_canonical [(0, 0), (0, 1), (10, 50), (100, 4294967295)] [(11, 49), (60, 200)]
      (by decide) (by decide) (by decide) (by decide)⟩

/-- Claim C3. For valid pools `O` and `N` no address operation of `find_diff` or
`getNextReducedRange` wraps: the run in which the subtractions of lines 30 and 132 and the
addition of line 149 are checked (exact integer result, fault on a result outside
`0 .. 2^32-1`) returns a pool without a fault, and it is the pool that the run with
arithmetic modulo `2^32` returns. -/
theorem C3_no_address_operation_wraps (O N : Pool) (hO : IsPool O) (hN : IsPool N)
    (hvO : ValidPool O) (hvN : ValidPool N) :
    ∃ r, find_diffChk O N = .ok r ∧ find_diff O N = .ok r := by
  obtain ⟨r, hr, _, _⟩ := find_diff_spec O N hO hN hvO hvN
  exact ⟨r, by rw [find_diffChk_eq O N hO.2 hN.2, hr], hr⟩

/-- The theorem of claim C3 at a concrete input, its hypotheses checked there. -/
theorem C3_witness :
    IsPool [(0, 0), (0, 1), (10, 50), (100, 4294967295), (4294967295, 4294967295)] ∧
    IsPool [(0, 2), (11, 49), (160, 4294967295)] ∧
    ValidPool [(0, 0), (0, 1), (10, 50), (100, 4294967295), (4294967295, 4294967295)] ∧
    ValidPool [(0, 2), (11, 49), (160, 4294967295)] ∧
    ∃ r, find_diffChk [(0, 0), (0, 1), (10, 50), (100, 4294967295), (4294967295, 4294967295)]
        [(0, 2), (11, 49), (160, 4294967295)] = .ok r ∧
      find_diff [(0, 0), (0, 1), (10, 50), (100, 4294967295), (4294967295, 4294967295)]
        [(0, 2), (11, 49), (160, 4294967295)] = .ok r :=
  ⟨by decide, by decide, by decide, by decide,
    C3_no_address_operation_wraps
      [(0, 0), (0, 1), (10, 50), (100, 4294967295), (4294967295, 4294967295)]
      [(0, 2), (11, 49), (160, 4294967295)] (by decide) (by decide) (by decide) (by decide)⟩

/-- Claim C4. For every valid pool `O`, `find_diff O []` returns the list of ranges that
the repeated calls of `getNextReducedRange` from the beginning of `O` produce. -/
theorem C4_diff_with_empty_is_normalize (O : Pool) (hO : IsPool O) (hvO : ValidPool O) :
    ∃ r, find_diff O [] = .ok r ∧ normalize O = .ok r := by
  have h := find_diff_eq_norm_of_disjoint O [] hO (by decide) hvO (by decide)
    (fun a h => covered_nil a h.2)
  exact ⟨norm O, h.1, h.2⟩

/-- The theorem of claim C4 at a concrete input, its hypotheses checked there. -/
theorem C4_witness :
    IsPool [(1, 17), (2, 145), (3, 28), (146, 146), (195, 218), (218, 333)] ∧
    ValidPool [(1, 17), (2, 145), (3, 28), (146, 146), (195, 218), (218, 333)] ∧
    ∃ r, find_diff [(1, 17), (2, 145), (3, 28), (146, 146), (195, 218), (218, 333)] [] = .ok r ∧
      normalize [(1, 17), (2, 145), (3, 28), (146, 146), (195, 218), (218, 333)] = .ok r :=
  ⟨by decide, by decide,
    C4_diff_with_empty_is_normalize
      [(1, 17), (2, 145), (3, 28), (146, 146), (195, 218), (218, 333)] (by decide) (by decide)⟩

/-- Claim C5. For every pool `N`, empty or not, valid or not, `find_diff [] N` returns the
empty pool. -/
theorem C5_diff_of_empty_is_empty (N : Pool) : find_diff [] N = .ok [] := by
  cases N with
  | nil => rfl
  | cons c rest =>
    have hb : sweepBody (initState [] (c :: rest))
        = (⟨[], (getNextReducedRange (c :: rest)).2, none, (getNextReducedRange (c :: rest)).1,
            false, false, none, []⟩, true) := by
      simp [sweepBody, pullOld, pullNew, initState, getNext_nil]
    have hl : sweepLoop (([] : Pool).length + (c :: rest).length + 1) (initState [] (c :: rest))
        = .ok ⟨[], (getNextReducedRange (c :: rest)).2, none,
            (getNextReducedRange (c :: rest)).1, false, false, none, []⟩ := by
      have hcond : (initState [] (c :: rest)).old_iter ≠ [] ∨
          (initState [] (c :: rest)).new_iter ≠ [] := Or.inr (by simp [initState])
      show sweepLoop ((([] : Pool).length + (c :: rest).length) + 1) _ = _
      unfold sweepLoop
      rw [if_pos hcond, hb]
    unfold find_diff
    rw [hl]
    rfl

/-- Claim C6. For every valid pool `O`, whatever redundant, nested, overlapping or adjacent
ranges it holds, `find_diff O O` returns the empty pool. -/
theorem C6_self_difference_is_empty (O : Pool) (hO : IsPool O) (hvO : ValidPool O) :
    find_diff O O = .ok [] :=
  find_diff_eq_nil_of_subset O O hO hO hvO hvO (fun _ h => h)

/-- The theorem of claim C6 at a concrete input, its hypotheses checked there. -/
theorem C6_witness :
    IsPool [(1, 17), (2, 145), (3, 28), (6, 12), (146, 146), (147, 193), (195, 218)] ∧
    ValidPool [(1, 17), (2, 145), (3, 28), (6, 12), (146, 146), (147, 193), (195, 218)] ∧
    find_diff [(1, 17), (2, 145), (3, 28), (6, 12), (146, 146), (147, 193), (195, 218)]
      [(1, 17), (2, 145), (3, 28), (6, 12), (146, 146), (147, 193), (195, 218)] = .ok [] :=
  ⟨by decide, by decide,
    C6_self_difference_is_empty
      [(1, 17), (2, 145), (3, 28), (6, 12), (146, 146), (147, 193), (195, 218)]
      (by decide) (by decide)⟩

/-- Claim C7. For valid pools `O` and `N` such that every address covered by `O` is covered
by `N`, `find_diff O N` returns the empty pool. -/
theorem C7_old_inside_new_is_empty (O N : Pool) (hO : IsPool O) (hN : IsPool N)
    (hvO : ValidPool O) (hvN : ValidPool N) (hsub : ∀ a, covered a O → covered a N) :
    find_diff O N = .ok [] :=
  find_diff_eq_nil_of_subset O N hO hN hvO hvN hsub

/-- The theorem of claim C7 at a concrete input, its hypotheses checked there. -/
theorem C7_witness :
    IsPool [(3, 5), (7, 9), (20, 30)] ∧ IsPool [(1, 6), (7, 12), (15, 40)] ∧
    ValidPool [(3, 5), (7, 9), (20, 30)] ∧ ValidPool [(1, 6), (7, 12), (15, 40)] ∧
    (∀ a, covered a [(3, 5), (7, 9), (20, 30)] → covered a [(1, 6), (7, 12), (15, 40)]) ∧
    find_diff [(3, 5), (7, 9), (20, 30)] [(1, 6), (7, 12), (15, 40)] = .ok [] :=
  have hsub : ∀ a, covered a [(3, 5), (7, 9), (20, 30)] →
      covered a [(1, 6), (7, 12), (15, 40)] := by
    intro a h
    simp only [covered_cons, covered_nil, or_false] at h ⊢
    omega
  ⟨by decide, by decide, by decide, by decide, hsub,
    C7_old_inside_new_is_empty [(3, 5), (7, 9), (20, 30)] [(1, 6), (7, 12), (15, 40)]
      (by decide) (by decide) (by decide) (by decide) hsub⟩

/-- Claim C8. For valid pools `O` and `N` such that every range of `O` ends before every
range of `N` starts, or every range of `N` ends before every range of `O` starts,
`find_diff O N` returns the normalization of `O`. -/
theorem C8_separated_pools_give_normalize (O N : Pool) (hO : IsPool O) (hN : IsPool N)
    (hvO : ValidPool O) (hvN : ValidPool N)
    (hsep : (∀ x ∈ O, ∀ y ∈ N, x.2 < y.1) ∨ (∀ x ∈ O, ∀ y ∈ N, y.2 < x.1)) :
    ∃ r, find_diff O N = .ok r ∧ normalize O = .ok r := by
  have hdis : ∀ a, ¬ (covered a O ∧ covered a N) := by
    rintro a ⟨⟨x, hx, h1, h2⟩, ⟨y, hy, h3, h4⟩⟩
    rcases hsep with h | h
    · have := h x hx y hy
      omega
    · have := h x hx y hy
      omega
  have h := find_diff_eq_norm_of_disjoint O N hO hN hvO hvN hdis
  exact ⟨norm O, h.1, h.2⟩

/-- The theorem of claim C8 at a concrete input, its hypotheses checked there. -/
theorem C8_witness :
    IsPool [(20, 24), (22, 30), (31, 31)] ∧ IsPool [(0, 4), (2, 19)] ∧
    ValidPool [(20, 24), (22, 30), (31, 31)] ∧ ValidPool [(0, 4), (2, 19)] ∧
    ((∀ x ∈ [((20 : Nat), (24 : Nat)), (22, 30), (31, 31)],
        ∀ y ∈ [((0 : Nat), (4 : Nat)), (2, 19)], x.2 < y.1) ∨
      (∀ x ∈ [((20 : Nat), (24 : Nat)), (22, 30), (31, 31)],
        ∀ y ∈ [((0 : Nat), (4 : Nat)), (2, 19)], y.2 < x.1)) ∧
    ∃ r, find_diff [(20, 24), (22, 30), (31, 31)] [(0, 4), (2, 19)] = .ok r ∧
      normalize [(20, 24), (22, 30), (31, 31)] = .ok r :=
  ⟨by decide, by decide, by decide, by decide, by decide,
    C8_separated_pools_give_normalize [(20, 24), (22, 30), (31, 31)] [(0, 4), (2, 19)]
      (by decide) (by decide) (by decide) (by decide) (by decide)⟩

/-- Claim C9. For valid pools `O` and `N` with no address in common, also when their ranges
interleave and a range of `N` fills the one-address gap between two ranges of `O`,
`find_diff O N` returns the normalization of `O`; ranges of `O` that only addresses of `N`
separate are therefore not merged. -/
theorem C9_disjoint_pools_give_normalize (O N : Pool) (hO : IsPool O) (hN : IsPool N)
    (hvO : ValidPool O) (hvN : ValidPool N) (hdis : ∀ a, ¬ (covered a O ∧ covered a N)) :
    ∃ r, find_diff O N = .ok r ∧ normalize O = .ok r := by
  have h := find_diff_eq_norm_of_disjoint O N hO hN hvO hvN hdis
  exact ⟨norm O, h.1, h.2⟩

/-- The theorem of claim C9 at a concrete input, its hypotheses checked there. -/
theorem C9_witness :
    IsPool [(0, 4), (6, 6), (10, 15)] ∧ IsPool [(5, 5), (7, 9), (16, 199)] ∧
    ValidPool [(0, 4), (6, 6), (10, 15)] ∧ ValidPool [(5, 5), (7, 9), (16, 199)] ∧
    (∀ a, ¬ (covered a [(0, 4), (6, 6), (10, 15)] ∧ covered a [(5, 5), (7, 9), (16, 199)])) ∧
    ∃ r, find_diff [(0, 4), (6, 6), (10, 15)] [(5, 5), (7, 9), (16, 199)] = .ok r ∧
      normalize [(0, 4), (6, 6), (10, 15)] = .ok r :=
  have hdis : ∀ a, ¬ (covered a [(0, 4), (6, 6), (10, 15)] ∧
      covered a [(5, 5), (7, 9), (16, 199)]) := by
    intro a
    simp only [covered_cons, covered_nil, or_false]
    omega
  ⟨by decide, by decide, by decide, by decide, hdis,
    C9_disjoint_pools_give_normalize [(0, 4), (6, 6), (10, 15)] [(5, 5), (7, 9), (16, 199)]
      (by decide) (by decide) (by decide) (by decide) hdis⟩

/-- Claim C10. For every pool `O` that is already canonical (valid ranges, ascending,
pairwise disjoint and not adjacent), `find_diff O []` returns `O` itself. -/
theorem C10_canonical_pool_is_fixed (O : Pool) (hO : IsPool O) (hc : Canonical O) :
    find_diff O [] = .ok O := by
  refine find_diff_eq_of_cover O [] hO (by decide) hc.1 (by decide) O (canon_of_canonical hc) ?_
  intro a
  constructor
  · intro h
    exact ⟨h, covered_nil a⟩
  · intro h
    exact h.1

/-- The theorem of claim C10 at a concrete input, its hypotheses checked there. -/
theorem C10_witness :
    IsPool [(7, 9), (93, 93), (448, 987), (1325, 10164)] ∧
    Canonical [(7, 9), (93, 93), (448, 987), (1325, 10164)] ∧
    find_diff [(7, 9), (93, 93), (448, 987), (1325, 10164)] []
      = .ok [(7, 9), (93, 93), (448, 987), (1325, 10164)] :=
  ⟨by decide, by decide,
    C10_canonical_pool_is_fixed [(7, 9), (93, 93), (448, 987), (1325, 10164)]
      (by decide) (by decide)⟩

/-- Repeated calls of `getNextReducedRange` end within one call more than there are ranges,
and produce at most as many ranges as they consume, and at least one from a non-empty
input. -/
theorem normalizeLoop_total :
    ∀ (fuel : Nat) (it : List Range), it.length < fuel →
      ∃ r, normalizeLoop fuel it = .ok r ∧ r.length ≤ it.length ∧ (it ≠ [] → r ≠ []) := by
  intro fuel
  induction fuel with
  | zero => intro it h; omega
  | succ fuel ih =>
    intro it hlen
    cases it with
    | nil => exact ⟨[], rfl, le_refl _, fun h => absurd rfl h⟩
    | cons c rest =>
      have hsuf := (reduceLoop_suffix c.2 rest).length_le
      obtain ⟨r, hr, hl, _⟩ := ih (reduceLoop c.2 rest).2
        (by simp only [List.length_cons] at hlen; omega)
      refine ⟨(c.1, (reduceLoop c.2 rest).1) :: r, ?_, ?_, ?_⟩
      · unfold normalizeLoop
        rw [getNext_cons]
        simp only
        rw [hr]
      · simp only [List.length_cons]; omega
      · intro _ h; simp at h

/-- Claim C12. For every sequence of valid ranges ascending by `first` (as a pool iterates),
the ranges that the repeated calls of `getNextReducedRange` produce cover exactly the
addresses that the input covers. -/
theorem C12_normalize_keeps_coverage (p : List Range) (hs : SortedFirst p)
    (hv : ValidPool p) (hb : Bounded p) :
    ∃ r, normalize p = .ok r ∧ ∀ a, covered a r ↔ covered a p :=
  ⟨norm p, normalize_eq_norm p hb, (norm_spec p hs hv).2⟩

/-- The theorem of claim C12 at a concrete input, its hypotheses checked there. -/
theorem C12_witness :
    SortedFirst [(1, 17), (2, 145), (3, 28), (146, 146), (195, 218), (218, 333)] ∧
    ValidPool [(1, 17), (2, 145), (3, 28), (146, 146), (195, 218), (218, 333)] ∧
    Bounded [(1, 17), (2, 145), (3, 28), (146, 146), (195, 218), (218, 333)] ∧
    ∃ r, normalize [(1, 17), (2, 145), (3, 28), (146, 146), (195, 218), (218, 333)] = .ok r ∧
      ∀ a, covered a r ↔
        covered a [(1, 17), (2, 145), (3, 28), (146, 146), (195, 218), (218, 333)] :=
  ⟨by decide, by decide, by decide,
    C12_normalize_keeps_coverage
      [(1, 17), (2, 145), (3, 28), (146, 146), (195, 218), (218, 333)]
      (by decide) (by decide) (by decide)⟩

theorem canon_strictly_ascending {l : List Range} (h : Canon l) :
    l.Pairwise (fun x y => x.1 < y.1) := by
  induction l with
  | nil => exact List.Pairwise.nil
  | cons r t ih =>
    obtain ⟨hv, hgap, ht⟩ := canon_cons.1 h
    refine List.pairwise_cons.2 ⟨?_, ih ht⟩
    intro y hy
    have := hgap y hy
    omega

/-- Claim C13. For every sequence of valid ranges ascending by `first`, the outputs of the
successive calls of `getNextReducedRange` are valid, strictly ascending, and two consecutive
outputs `(a,b)`, `(c,d)` satisfy `c > b` and `c - b > 1`; every output even ends more than
one address before every later output starts, so the outputs are pairwise disjoint, not
adjacent and cannot be merged. The 12-range pool of the specification reduces to
`{(1,193), (195,689), (1024,5532)}`. -/
theorem C13_normalize_is_canonical :
    (∀ p : List Range, SortedFirst p → ValidPool p → Bounded p →
      ∃ r, normalize p = .ok r ∧ Canonical r ∧ r.Pairwise (fun x y => x.1 < y.1) ∧
        r.Pairwise (fun x y => x.2 + 1 < y.1)) ∧
    normalize [(1, 17), (2, 145), (3, 28), (6, 12), (6, 17), (146, 146), (147, 193),
        (195, 218), (218, 333), (331, 689), (332, 354), (1024, 5532)]
      = .ok [(1, 193), (195, 689), (1024, 5532)] := by
  refine ⟨?_, by decide⟩
  intro p hs hv hb
  have hc := (norm_spec p hs hv).1
  exact ⟨norm p, normalize_eq_norm p hb, canonical_of_canon hc, canon_strictly_ascending hc,
    hc.2⟩

/-- The general part of claim C13 at the 12-range pool of the specification. -/
theorem C13_witness :
    SortedFirst [(1, 17), (2, 145), (3, 28), (6, 12), (6, 17), (146, 146), (147, 193),
        (195, 218), (218, 333), (331, 689), (332, 354), (1024, 5532)] ∧
    ValidPool [(1, 17), (2, 145), (3, 28), (6, 12), (6, 17), (146, 146), (147, 193),
        (195, 218), (218, 333), (331, 689), (332, 354), (1024, 5532)] ∧
    Bounded [(1, 17), (2, 145), (3, 28), (6, 12), (6, 17), (146, 146), (147, 193),
        (195, 218), (218, 333), (331, 689), (332, 354), (1024, 5532)] ∧
    ∃ r, normalize [(1, 17), (2, 145), (3, 28), (6, 12), (6, 17), (146, 146), (147, 193),
        (195, 218), (218, 333), (331, 689), (332, 354), (1024, 5532)] = .ok r ∧
      Canonical r ∧ r.Pairwise (fun x y => x.1 < y.1) ∧
        r.Pairwise (fun x y => x.2 + 1 < y.1) :=
  ⟨by decide, by decide, by decide,
    C13_normalize_is_canonical.1
      [(1, 17), (2, 145), (3, 28), (6, 12), (6, 17), (146, 146), (147, 193),
        (195, 218), (218, 333), (331, 689), (332, 354), (1024, 5532)]
      (by decide) (by decide) (by decide)⟩

/-- Claim C14. With `MAX = 2^32-1 = 4294967295`, the two limit cases of the tests: `find_diff`
returns `{(0,1), (10,50), (100,MAX)}` for the first and
`{(10,10), (50,50), (111,119), (131,139), (151,159)}` for the second, and the run with
checked address operations returns the same pools, so nothing overflows. -/
theorem C14_limit_cases :
    find_diff [(0, 0), (0, 1), (10, 50), (100, 4294967295), (4294967295, 4294967295)] []
      = .ok [(0, 1), (10, 50), (100, 4294967295)] ∧
    find_diff
      [(0, 0), (0, 1), (10, 10), (10, 50), (50, 50), (100, 4294967295),
        (4294967295, 4294967295)]
      [(0, 2), (11, 49), (60, 70), (80, 90), (100, 110), (120, 130), (140, 150),
        (160, 4294967295), (170, 4294967295)]
      = .ok [(10, 10), (50, 50), (111, 119), (131, 139), (151, 159)] ∧
    find_diffChk [(0, 0), (0, 1), (10, 50), (100, 4294967295), (4294967295, 4294967295)] []
      = .ok [(0, 1), (10, 50), (100, 4294967295)] ∧
    find_diffChk
      [(0, 0), (0, 1), (10, 10), (10, 50), (50, 50), (100, 4294967295),
        (4294967295, 4294967295)]
      [(0, 2), (11, 49), (60, 70), (80, 90), (100, 110), (120, 130), (140, 150),
        (160, 4294967295), (170, 4294967295)]
      = .ok [(10, 10), (50, 50), (111, 119), (131, 139), (151, 159)] := by
  refine ⟨by decide, by decide, by decide, by decide⟩

/-- Claim C18. At the end position `getNextReducedRange` returns no range and leaves the
cursor where it is; normalizing the empty pool therefore produces no range. -/
theorem C18_exhausted_cursor_yields_nothing :
    getNextReducedRange [] = (none, []) ∧ normalize [] = .ok [] :=
  ⟨rfl, rfl⟩

/-- Claim C19. For 32-bit values the break condition of line 30, evaluated with the
machine subtraction, holds exactly when `range_last + 1 < next_first` holds for the
integers; it is false whenever `range_last = 2^32-1`, where the test
`range_last + 1 < next_first` with the machine addition would hold for every
`next_first > 0`. -/
theorem C19_break_condition_exact (next_first range_last : Nat) (hn : next_first < U32)
    (hr : range_last < U32) :
    ((next_first > range_last ∧ sub32 next_first range_last > 1)
        ↔ range_last + 1 < next_first) ∧
    (range_last = U32 - 1 → ¬ (next_first > range_last ∧ sub32 next_first range_last > 1)) ∧
    (range_last = U32 - 1 → 0 < next_first → add32 range_last 1 < next_first) := by
  refine ⟨break_cond_iff hn, ?_, ?_⟩
  · intro h hh
    have := (break_cond_iff hn).1 hh
    omega
  · intro h hpos
    have : add32 range_last 1 = 0 := by
      unfold add32
      rw [h]
      decide
    omega

/-- The theorem of claim C19 at the largest `range_last`. -/
theorem C19_witness :
    (5 : Nat) < U32 ∧ (4294967295 : Nat) < U32 ∧
    (((5 : Nat) > 4294967295 ∧ sub32 5 4294967295 > 1) ↔ 4294967295 + 1 < 5) ∧
    ((4294967295 : Nat) = U32 - 1 → ¬ ((5 : Nat) > 4294967295 ∧ sub32 5 4294967295 > 1)) ∧
    ((4294967295 : Nat) = U32 - 1 → 0 < 5 → add32 4294967295 1 < 5) :=
  ⟨by decide, by decide, C19_break_condition_exact 5 4294967295 (by decide) (by decide)⟩

/-- Claim C20. For every pool of `n` ranges the repeated calls of `getNextReducedRange` from
the beginning return nothing after at most `n` successful calls (one call more than `n`
is enough fuel), and they produce at most `n` ranges, and at least one when `n > 0`. -/
theorem C20_normalize_bounded_by_input (p : List Range) :
    ∃ r, normalize p = .ok r ∧ r.length ≤ p.length ∧ (0 < p.length → 1 ≤ r.length) := by
  obtain ⟨r, hr, hl, hne⟩ := normalizeLoop_total (p.length + 1) p (Nat.lt_succ_self _)
  refine ⟨r, hr, hl, ?_⟩
  intro hpos
  have hp : p ≠ [] := by
    intro h
    rw [h] at hpos
    simp at hpos
  exact List.length_pos.2 (hne hp)

/-- Claim C11. For an old pool of one valid range `(a,b)` and a new pool of one valid range
`(c,d)`: when `b < c` or `d < a` the result is `{(a,b)}`; otherwise it consists of the left
piece `(a, c-1)` when `a < c` and of the right piece `(d+1, b)` when `d < b`, and of nothing
else. -/
theorem C11_single_range_carve_out (a b c d : Nat) (hab : a ≤ b) (hcd : c ≤ d)
    (hb : b < U32) (hd : d < U32) :
    find_diff [(a, b)] [(c, d)] = .ok
      (if b < c ∨ d < a then [(a, b)]
       else (if a < c then [(a, c - 1)] else []) ++ (if d < b then [(d + 1, b)] else [])) := by
  have hO : IsPool [(a, b)] :=
    ⟨List.pairwise_singleton _ _, by
      intro r hr
      simp only [List.mem_singleton] at hr
      subst hr
      exact ⟨Nat.lt_of_le_of_lt hab hb, hb⟩⟩
  have hN : IsPool [(c, d)] :=
    ⟨List.pairwise_singleton _ _, by
      intro r hr
      simp only [List.mem_singleton] at hr
      subst hr
      exact ⟨Nat.lt_of_le_of_lt hcd hd, hd⟩⟩
  have hvO : ValidPool [(a, b)] := by
    intro r hr
    simp only [List.mem_singleton] at hr
    subst hr
    exact hab
  have hvN : ValidPool [(c, d)] := by
    intro r hr
    simp only [List.mem_singleton] at hr
    subst hr
    exact hcd
  refine find_diff_eq_of_cover _ _ hO hN hvO hvN _ ?_ ?_
  · by_cases h1 : b < c ∨ d < a
    · rw [if_pos h1]
      exact canon_cons.2 ⟨hab, by intro y hy; simp at hy, canon_nil⟩
    · rw [if_neg h1]
      by_cases h2 : a < c <;> by_cases h3 : d < b <;>
        simp only [h2, h3, if_true, if_false, List.nil_append, List.singleton_append,
          List.append_nil]
      · refine canon_cons.2 ⟨by simp only; omega, ?_, canon_cons.2
          ⟨by simp only; omega, by intro y hy; simp at hy, canon_nil⟩⟩
        intro y hy
        simp only [List.mem_singleton] at hy
        subst hy
        simp only
        omega
      · exact canon_cons.2 ⟨by simp only; omega, by intro y hy; simp at hy, canon_nil⟩
      · exact canon_cons.2 ⟨by simp only; omega, by intro y hy; simp at hy, canon_nil⟩
      · exact canon_nil
  · intro x
    by_cases h1 : b < c ∨ d < a
    · rw [if_pos h1]
      simp only [covered_cons, covered_nil, or_false]
      omega
    · rw [if_neg h1]
      by_cases h2 : a < c <;> by_cases h3 : d < b <;>
        simp only [h2, h3, if_true, if_false, List.nil_append, List.singleton_append,
          List.append_nil, covered_cons, covered_nil, or_false, false_iff] <;>
        omega

/-- The theorem of claim C11 at the partial carve-out of the specification. -/
theorem C11_witness :
    (3 : Nat) ≤ 14 ∧ (7 : Nat) ≤ 12 ∧ (14 : Nat) < U32 ∧ (12 : Nat) < U32 ∧
    find_diff [(3, 14)] [(7, 12)] = .ok
      (if (14 : Nat) < 7 ∨ (12 : Nat) < 3 then [(3, 14)]
       else (if (3 : Nat) < 7 then [(3, 7 - 1)] else []) ++
         (if (12 : Nat) < 14 then [(12 + 1, 14)] else [])) :=
  ⟨by decide, by decide, by decide, by decide,
    C11_single_range_carve_out 3 14 7 12 (by decide) (by decide) (by decide) (by decide)⟩

/-! ## One call of `getNextReducedRange` -/

theorem maxLast_cons (seed : Nat) (x : Range) (k : List Range) :
    maxLast seed (x :: k) = maxLast (max seed x.2) k := rfl

theorem maxLast_spec (k : List Range) :
    ∀ seed : Nat, seed ≤ maxLast seed k ∧ (∀ x ∈ k, x.2 ≤ maxLast seed k) ∧
      (maxLast seed k = seed ∨ ∃ x ∈ k, x.2 = maxLast seed k) := by
  induction k with
  | nil =>
    intro seed
    exact ⟨le_refl _, by intro x hx; simp at hx, Or.inl rfl⟩
  | cons c k ih =>
    intro seed
    obtain ⟨h1, h2, h3⟩ := ih (max seed c.2)
    rw [maxLast_cons]
    refine ⟨le_trans (le_max_left _ _) h1, ?_, ?_⟩
    · intro x hx
      rcases List.mem_cons.1 hx with rfl | hx
      · exact le_trans (le_max_right _ _) h1
      · exact h2 x hx
    · rcases h3 with h3 | ⟨x, hx, h3⟩
      · rcases le_total seed c.2 with h | h
        · exact Or.inr ⟨c, List.mem_cons_self _ _, by rw [h3, max_eq_right h]⟩
        · exact Or.inl (by rw [h3, max_eq_left h])
      · exact Or.inr ⟨x, List.mem_cons_of_mem _ hx, h3⟩

/-- The loop of `getNextReducedRange` consumes a front part `k` of its input: it stops at
the first range that starts more than one address after the running last, and every range
of `k` starts at most one address after the running last that it met. -/
theorem reduceLoop_consumed (rest : List Range) (hb : Bounded rest) :
    ∀ last : Nat, ∃ k : List Range,
      rest = k ++ (reduceLoop last rest).2 ∧ (reduceLoop last rest).1 = maxLast last k ∧
      (∀ y, (reduceLoop last rest).2.head? = some y →
        y.1 > maxLast last k ∧ y.1 - maxLast last k > 1) ∧
      ∀ pre x post, k = pre ++ x :: post → x.1 ≤ maxLast last pre + 1 := by
  induction rest with
  | nil =>
    intro last
    refine ⟨[], rfl, rfl, ?_, ?_⟩
    · intro y hy; simp [reduceLoop] at hy
    · intro pre x post h; simp at h
  | cons c rest ih =>
    intro last
    have hc : c.1 < U32 := (hb c (List.mem_cons_self _ _)).1
    have hrest : Bounded rest := fun r hr => hb r (List.mem_cons_of_mem _ hr)
    by_cases h : c.1 > last ∧ sub32 c.1 last > 1
    · have hr : reduceLoop last (c :: rest) = (last, c :: rest) := by
        unfold reduceLoop
        rw [if_pos h]
      rw [hr]
      refine ⟨[], rfl, rfl, ?_, ?_⟩
      · intro y hy
        simp only [List.head?_cons, Option.some.injEq] at hy
        subst hy
        have := (break_cond_iff hc).1 h
        show c.1 > last ∧ c.1 - last > 1
        omega
      · intro pre x post h; simp at h
    · have hr : reduceLoop last (c :: rest) = reduceLoop (max last c.2) rest := by
        conv_lhs => unfold reduceLoop
        rw [if_neg h]
      rw [hr]
      obtain ⟨k, h1, h2, h3, h4⟩ := ih hrest (max last c.2)
      refine ⟨c :: k, ?_, ?_, ?_, ?_⟩
      · rw [List.cons_append, ← h1]
      · rw [maxLast_cons]; exact h2
      · rw [maxLast_cons]; exact h3
      · intro pre x post hk
        cases pre with
        | nil =>
          simp only [List.nil_append, List.cons.injEq] at hk
          obtain ⟨rfl, _⟩ := hk
          have hnot : ¬ last + 1 < c.1 := fun hh => h ((break_cond_iff hc).2 hh)
          show c.1 ≤ last + 1
          omega
        | cons p pre =>
          simp only [List.cons_append, List.cons.injEq] at hk
          obtain ⟨rfl, hk⟩ := hk
          rw [maxLast_cons]
          exact h4 pre x post hk

/-- Claim C17. At a cursor that is not at the end (the input from the cursor on is
`c :: rest`), one call of `getNextReducedRange` consumes the seed `c` and a front part `k`
of `rest`, and returns `(f, l)` with `f` the first of `c` and `l` the maximum of the lasts of
`c :: k`. The cursor advances by at least one position, to the first unconsumed range,
which (when there is one) has `first > l` and `first - l > 1`, and every range of `k`
started at most one address after the running last of the ranges before it. -/
theorem C17_one_call_of_getNextReducedRange (c : Range) (rest : List Range)
    (hb : Bounded (c :: rest)) :
    ∃ (k it : List Range) (l : Nat),
      getNextReducedRange (c :: rest) = (some (c.1, l), it) ∧
      c :: rest = (c :: k) ++ it ∧ it.length < (c :: rest).length ∧
      l = maxLast c.2 k ∧ (∀ x ∈ c :: k, x.2 ≤ l) ∧ (∃ x ∈ c :: k, x.2 = l) ∧
      (∀ y, it.head? = some y → y.1 > l ∧ y.1 - l > 1) ∧
      ∀ pre x post, k = pre ++ x :: post → x.1 ≤ maxLast c.2 pre + 1 := by
  have hrest : Bounded rest := fun r hr => hb r (List.mem_cons_of_mem _ hr)
  obtain ⟨k, h1, h2, h3, h4⟩ := reduceLoop_consumed rest hrest c.2
  obtain ⟨m1, m2, m3⟩ := maxLast_spec k c.2
  refine ⟨k, (reduceLoop c.2 rest).2, maxLast c.2 k, ?_, ?_, ?_, rfl, ?_, ?_, h3, h4⟩
  · rw [getNext_cons, h2]
  · rw [List.cons_append, ← h1]
  · have := (reduceLoop_suffix c.2 rest).length_le
    simp only [List.length_cons]
    omega
  · intro x hx
    rcases List.mem_cons.1 hx with rfl | hx
    · exact m1
    · exact m2 x hx
  · rcases m3 with h | ⟨x, hx, h⟩
    · exact ⟨c, List.mem_cons_self _ _, h.symm⟩
    · exact ⟨x, List.mem_cons_of_mem _ hx, h⟩

/-- The theorem of claim C17 at the start of a pool with nested and adjacent ranges. -/
theorem C17_witness :
    Bounded [(1, 17), (2, 145), (3, 28), (146, 146), (195, 218), (218, 333)] ∧
    ∃ (k it : List Range) (l : Nat),
      getNextReducedRange [(1, 17), (2, 145), (3, 28), (146, 146), (195, 218), (218, 333)]
        = (some (((1 : Nat), (17 : Nat)).1, l), it) ∧
      [((1 : Nat), (17 : Nat)), (2, 145), (3, 28), (146, 146), (195, 218), (218, 333)]
        = (((1 : Nat), (17 : Nat)) :: k) ++ it ∧
      it.length
        < [((1 : Nat), (17 : Nat)), (2, 145), (3, 28), (146, 146), (195, 218),
            (218, 333)].length ∧
      l = maxLast ((1 : Nat), (17 : Nat)).2 k ∧
      (∀ x ∈ ((1 : Nat), (17 : Nat)) :: k, x.2 ≤ l) ∧
      (∃ x ∈ ((1 : Nat), (17 : Nat)) :: k, x.2 = l) ∧
      (∀ y, it.head? = some y → y.1 > l ∧ y.1 - l > 1) ∧
      ∀ pre x post, k = pre ++ x :: post → x.1 ≤ maxLast ((1 : Nat), (17 : Nat)).2 pre + 1 :=
  ⟨by decide,
    C17_one_call_of_getNextReducedRange (1, 17)
      [(2, 145), (3, 28), (146, 146), (195, 218), (218, 333)] (by decide)⟩

/-! ## Progress of the loops -/

theorem getNext_length (cur : List Range) :
    (getNextReducedRange cur).2.length ≤ cur.length ∧
      ((getNextReducedRange cur).1 ≠ none →
        (getNextReducedRange cur).2.length < cur.length) := by
  cases cur with
  | nil => exact ⟨le_refl _, fun h => absurd rfl h⟩
  | cons c rest =>
    have := (reduceLoop_suffix c.2 rest).length_le
    rw [getNext_cons]
    simp only [List.length_cons]
    exact ⟨by omega, fun _ => by omega⟩

theorem getNext_some_length {cur it : List Range} {r : Range}
    (h : getNextReducedRange cur = (some r, it)) : it.length < cur.length := by
  have := (getNext_length cur).2
  rw [h] at this
  exact this (by simp)

theorem pullOld_frame (s : SweepState) :
    (pullOld s).new_iter = s.new_iter ∧ (pullOld s).new_range = s.new_range ∧
    (pullOld s).advance_new = s.advance_new ∧
    (pullOld s).old_iter.length ≤ s.old_iter.length ∧
    (s.advance_old = true → (pullOld s).old_range ≠ none →
      (pullOld s).old_iter.length < s.old_iter.length) := by
  obtain ⟨h1, h2⟩ := getNext_length s.old_iter
  unfold pullOld
  by_cases h : s.advance_old = true
  · rw [if_pos h]
    rcases hg : getNextReducedRange s.old_iter with ⟨r, it⟩
    rw [hg] at h1 h2
    cases r with
    | none => exact ⟨rfl, rfl, rfl, h1, fun _ hh => absurd rfl hh⟩
    | some r => exact ⟨rfl, rfl, rfl, h1, fun _ _ => h2 (by simp)⟩
  · rw [if_neg h]
    exact ⟨rfl, rfl, rfl, le_refl _, fun hh => absurd hh h⟩

theorem pullNew_frame (s : SweepState) :
    (pullNew s).old_iter = s.old_iter ∧ (pullNew s).old_range = s.old_range ∧
    (pullNew s).new_iter.length ≤ s.new_iter.length ∧
    (s.advance_new = true → (pullNew s).new_range ≠ none →
      (pullNew s).new_iter.length < s.new_iter.length) := by
  obtain ⟨h1, h2⟩ := getNext_length s.new_iter
  unfold pullNew
  by_cases h : s.advance_new = true
  · rw [if_pos h]
    exact ⟨rfl, rfl, h1, fun _ hh => h2 hh⟩
  · rw [if_neg h]
    exact ⟨rfl, rfl, le_refl _, fun hh => absurd hh h⟩

theorem compareStep_frame (s : SweepState) (o n : Range) :
    (compareStep s o n).old_iter = s.old_iter ∧ (compareStep s o n).new_iter = s.new_iter ∧
    ((compareStep s o n).advance_old = true ∨ (compareStep s o n).advance_new = true) := by
  unfold compareStep
  by_cases h1 : o.2 < n.1
  · rw [if_pos h1]
    cases s.noncovered_start <;> exact ⟨rfl, rfl, Or.inl rfl⟩
  · rw [if_neg h1]
    by_cases h2 : n.2 < o.1
    · rw [if_pos h2]
      exact ⟨rfl, rfl, Or.inr rfl⟩
    · rw [if_neg h2]
      cases s.noncovered_start with
      | none => by_cases h3 : n.2 < o.2 <;> simp [h3]
      | some v => by_cases h3 : n.2 < o.2 <;> by_cases h4 : v < n.1 <;> simp [h3, h4]

/-- An execution of the loop body that does not break consumes at least one element of one
of the pools, and leaves a flag set for the next execution. This needs no assumption on the
ranges. -/
theorem sweepBody_advances (s : SweepState)
    (hf : s.advance_old = true ∨ s.advance_new = true) (hb : (sweepBody s).2 = false) :
    (sweepBody s).1.old_iter.length + (sweepBody s).1.new_iter.length
        < s.old_iter.length + s.new_iter.length ∧
      ((sweepBody s).1.advance_old = true ∨ (sweepBody s).1.advance_new = true) := by
  obtain ⟨a1, a2, a3, a4, a5⟩ := pullOld_frame s
  obtain ⟨b1, b2, b3, b4⟩ := pullNew_frame (pullOld s)
  rw [a1] at b3 b4
  rw [a3] at b4
  unfold sweepBody at hb ⊢
  simp only at hb ⊢
  generalize pullNew (pullOld s) = s2 at *
  cases ho : s2.old_range with
  | none => rw [ho] at hb; simp at hb
  | some o =>
    cases hn : s2.new_range with
    | none => rw [ho, hn] at hb; simp at hb
    | some n =>
      obtain ⟨c1, c2, c3⟩ := compareStep_frame s2 o n
      simp only
      rw [c1, c2, b1]
      refine ⟨?_, c3⟩
      rcases hf with h | h
      · have := a5 h (by rw [← b2, ho]; simp)
        omega
      · have := b4 h (by rw [hn]; simp)
        omega

theorem loopHead_flags {O N : Pool} {s : SweepState} (h : LoopHead O N s) :
    s.advance_old = true ∨ s.advance_new = true := by
  induction h with
  | entry => exact Or.inl rfl
  | next s _ _ hb ih => exact (sweepBody_advances s ih hb).2

/-- Claim C15. For valid pools `find_diff` returns a pool: the sweep loop and the drain loop
end within their fuel. The reason: every execution of the body of the sweep loop that does
not break, from a state that the run reaches, moves one of the two cursors forward, and so
does every call of `getNextReducedRange` of the drain loop that returns a range. -/
theorem C15_find_diff_total (O N : Pool) (hO : IsPool O) (hN : IsPool N)
    (hvO : ValidPool O) (hvN : ValidPool N) :
    (∃ r, find_diff O N = .ok r) ∧
    (∀ s, LoopHead O N s → (sweepBody s).2 = false →
      (sweepBody s).1.old_iter.length + (sweepBody s).1.new_iter.length
        < s.old_iter.length + s.new_iter.length) ∧
    (∀ cur r it, getNextReducedRange cur = (some r, it) → it.length < cur.length) := by
  obtain ⟨r, hr, _, _⟩ := find_diff_spec O N hO hN hvO hvN
  refine ⟨⟨r, hr⟩, ?_, ?_⟩
  · intro s hs hb
    exact (sweepBody_advances s (loopHead_flags hs) hb).1
  · intro cur r it h
    exact getNext_some_length h

/-- The theorem of claim C15 at pools that hold both ends of the address domain. -/
theorem C15_witness :
    IsPool [(0, 0), (0, 1), (10, 50), (100, 4294967295), (4294967295, 4294967295)] ∧
    IsPool [(0, 2), (11, 49), (160, 4294967295)] ∧
    ValidPool [(0, 0), (0, 1), (10, 50), (100, 4294967295), (4294967295, 4294967295)] ∧
    ValidPool [(0, 2), (11, 49), (160, 4294967295)] ∧
    (∃ r, find_diff [(0, 0), (0, 1), (10, 50), (100, 4294967295), (4294967295, 4294967295)]
        [(0, 2), (11, 49), (160, 4294967295)] = .ok r) ∧
    (∀ s, LoopHead [(0, 0), (0, 1), (10, 50), (100, 4294967295), (4294967295, 4294967295)]
        [(0, 2), (11, 49), (160, 4294967295)] s → (sweepBody s).2 = false →
      (sweepBody s).1.old_iter.length + (sweepBody s).1.new_iter.length
        < s.old_iter.length + s.new_iter.length) ∧
    (∀ cur r it, getNextReducedRange cur = (some r, it) → it.length < cur.length) :=
  ⟨by decide, by decide, by decide, by decide,
    C15_find_diff_total
      [(0, 0), (0, 1), (10, 50), (100, 4294967295), (4294967295, 4294967295)]
      [(0, 2), (11, 49), (160, 4294967295)] (by decide) (by decide) (by decide) (by decide)⟩

/-! ## Pools built from sequences of ranges -/

theorem rangeLt_trans {a b c : Range} (h1 : rangeLt a b) (h2 : rangeLt b c) : rangeLt a c := by
  unfold rangeLt at *
  omega

theorem rangeLt_asymm {a b : Range} (h1 : rangeLt a b) : ¬ rangeLt b a := by
  unfold rangeLt at *
  omega

theorem eq_of_not_rangeLt {a b : Range} (h1 : ¬ rangeLt a b) (h2 : ¬ rangeLt b a) : a = b := by
  unfold rangeLt at *
  exact Prod.ext (by omega) (by omega)

theorem mem_poolInsert (r x : Range) (p : Pool) :
    x ∈ poolInsert r p ↔ x = r ∨ x ∈ p := by
  induction p with
  | nil => simp [poolInsert]
  | cons y ys ih =>
    unfold poolInsert
    by_cases h1 : rangeLt r y
    · rw [if_pos h1]
      simp
    · rw [if_neg h1]
      by_cases h2 : rangeLt y r
      · rw [if_pos h2]
        simp only [List.mem_cons, ih]
        tauto
      · rw [if_neg h2]
        have : r = y := eq_of_not_rangeLt h1 h2
        subst this
        simp

theorem poolInsert_sorted (r : Range) (p : Pool) (hp : p.Pairwise rangeLt) :
    (poolInsert r p).Pairwise rangeLt := by
  induction p with
  | nil => simp [poolInsert]
  | cons y ys ih =>
    obtain ⟨hy, hys⟩ := List.pairwise_cons.1 hp
    unfold poolInsert
    by_cases h1 : rangeLt r y
    · rw [if_pos h1]
      refine List.pairwise_cons.2 ⟨?_, hp⟩
      intro x hx
      rcases List.mem_cons.1 hx with rfl | hx
      · exact h1
      · exact rangeLt_trans h1 (hy x hx)
    · rw [if_neg h1]
      by_cases h2 : rangeLt y r
      · rw [if_pos h2]
        refine List.pairwise_cons.2 ⟨?_, ih hys⟩
        intro x hx
        rcases (mem_poolInsert r x ys).1 hx with rfl | hx
        · exact h2
        · exact hy x hx
      · rw [if_neg h2]
        exact hp

theorem foldl_poolInsert_spec (l : List Range) :
    ∀ acc : Pool, acc.Pairwise rangeLt →
      (l.foldl (fun p r => poolInsert r p) acc).Pairwise rangeLt ∧
        ∀ x, x ∈ l.foldl (fun p r => poolInsert r p) acc ↔ x ∈ acc ∨ x ∈ l := by
  induction l with
  | nil =>
    intro acc hacc
    exact ⟨hacc, fun x => by simp⟩
  | cons r l ih =>
    intro acc hacc
    obtain ⟨h1, h2⟩ := ih (poolInsert r acc) (poolInsert_sorted r acc hacc)
    refine ⟨h1, ?_⟩
    intro x
    rw [List.foldl_cons, h2 x, mem_poolInsert, List.mem_cons]
    tauto

theorem mkPool_sorted (l : List Range) : (mkPool l).Pairwise rangeLt :=
  (foldl_poolInsert_spec l [] List.Pairwise.nil).1

theorem mem_mkPool (l : List Range) (x : Range) : x ∈ mkPool l ↔ x ∈ l := by
  unfold mkPool
  rw [(foldl_poolInsert_spec l [] List.Pairwise.nil).2 x]
  simp

/-- Two strictly ascending lists of ranges with the same elements are equal. -/
theorem sorted_ext (l1 : List Range) :
    ∀ l2 : List Range, l1.Pairwise rangeLt → l2.Pairwise rangeLt →
      (∀ x, x ∈ l1 ↔ x ∈ l2) → l1 = l2 := by
  induction l1 with
  | nil =>
    intro l2 _ _ h
    cases l2 with
    | nil => rfl
    | cons b t => exact absurd ((h b).2 (List.mem_cons_self _ _)) (List.not_mem_nil _)
  | cons a t1 ih =>
    intro l2 h1 h2 h
    cases l2 with
    | nil => exact absurd ((h a).1 (List.mem_cons_self _ _)) (List.not_mem_nil _)
    | cons b t2 =>
      obtain ⟨ha, ht1⟩ := List.pairwise_cons.1 h1
      obtain ⟨hb, ht2⟩ := List.pairwise_cons.1 h2
      have hab : a = b := by
        rcases List.mem_cons.1 ((h a).1 (List.mem_cons_self _ _)) with e | e
        · exact e
        · rcases List.mem_cons.1 ((h b).2 (List.mem_cons_self _ _)) with e2 | e2
          · exact e2.symm
          · exact absurd (ha b e2) (rangeLt_asymm (hb a e))
      subst hab
      have htail : t1 = t2 := by
        refine ih t2 ht1 ht2 ?_
        intro x
        constructor
        · intro hx
          rcases List.mem_cons.1 ((h x).1 (List.mem_cons_of_mem _ hx)) with e | e
          · subst e
            exact absurd (ha x hx) (rangeLt_asymm (ha x hx))
          · exact e
        · intro hx
          rcases List.mem_cons.1 ((h x).2 (List.mem_cons_of_mem _ hx)) with e | e
          · subst e
            exact absurd (hb x hx) (rangeLt_asymm (hb x hx))
          · exact e
      rw [htail]

/-- The pool built from a sequence depends only on the set of its elements. -/
theorem mkPool_congr (l1 l2 : List Range) (h : ∀ x, x ∈ l1 ↔ x ∈ l2) :
    mkPool l1 = mkPool l2 :=
  sorted_ext _ _ (mkPool_sorted l1) (mkPool_sorted l2)
    (fun x => by rw [mem_mkPool, mem_mkPool, h x])

theorem mkPool_isPool (l : List Range) (hb : Bounded l) : IsPool (mkPool l) :=
  ⟨mkPool_sorted l, fun r hr => hb r ((mem_mkPool l r).1 hr)⟩

theorem mkPool_valid (l : List Range) (hv : ValidPool l) : ValidPool (mkPool l) :=
  fun r hr => hv r ((mem_mkPool l r).1 hr)

/-- Claim C16. Permuting or repeating ranges does not change the result: when `L2` has the
same elements as the sequence `L1` of valid ranges, and `M2` the same as `M1`, the pools
built from them give the same result of `find_diff`, and it is a pool. -/
theorem C16_order_and_repetition_irrelevant (L1 L2 M1 M2 : List Range)
    (hL : ∀ r, r ∈ L1 ↔ r ∈ L2) (hM : ∀ r, r ∈ M1 ↔ r ∈ M2)
    (hbL : Bounded L1) (hbM : Bounded M1) (hvL : ValidPool L1) (hvM : ValidPool M1) :
    ∃ r, find_diff (mkPool L1) (mkPool M1) = .ok r ∧
      find_diff (mkPool L2) (mkPool M2) = .ok r := by
  obtain ⟨r, hr, _, _⟩ := find_diff_spec (mkPool L1) (mkPool M1) (mkPool_isPool L1 hbL)
    (mkPool_isPool M1 hbM) (mkPool_valid L1 hvL) (mkPool_valid M1 hvM)
  refine ⟨r, hr, ?_⟩
  rw [← mkPool_congr L1 L2 hL, ← mkPool_congr M1 M2 hM]
  exact hr

/-- The theorem of claim C16 at the unordered initializer lists of the tests, against a
reordering with repeated entries. -/
theorem C16_witness :
    (∀ r, r ∈ [((448 : Nat), (987 : Nat)), (7, 9), (1325, 10164), (93, 93)] ↔
      r ∈ [((93 : Nat), (93 : Nat)), (7, 9), (448, 987), (7, 9), (1325, 10164), (93, 93)]) ∧
    (∀ r, r ∈ [((600 : Nat), (600 : Nat)), (3, 129), (1, 145)] ↔
      r ∈ [((1 : Nat), (145 : Nat)), (600, 600), (1, 145), (3, 129)]) ∧
    Bounded [(448, 987), (7, 9), (1325, 10164), (93, 93)] ∧
    Bounded [(600, 600), (3, 129), (1, 145)] ∧
    ValidPool [(448, 987), (7, 9), (1325, 10164), (93, 93)] ∧
    ValidPool [(600, 600), (3, 129), (1, 145)] ∧
    ∃ r, find_diff (mkPool [(448, 987), (7, 9), (1325, 10164), (93, 93)])
        (mkPool [(600, 600), (3, 129), (1, 145)]) = .ok r ∧
      find_diff (mkPool [(93, 93), (7, 9), (448, 987), (7, 9), (1325, 10164), (93, 93)])
        (mkPool [(1, 145), (600, 600), (1, 145), (3, 129)]) = .ok r :=
  have hL : ∀ r, r ∈ [((448 : Nat), (987 : Nat)), (7, 9), (1325, 10164), (93, 93)] ↔
      r ∈ [((93 : Nat), (93 : Nat)), (7, 9), (448, 987), (7, 9), (1325, 10164), (93, 93)] := by
    intro r
    simp only [List.mem_cons, List.mem_singleton, List.not_mem_nil, or_false]
    tauto
  have hM : ∀ r, r ∈ [((600 : Nat), (600 : Nat)), (3, 129), (1, 145)] ↔
      r ∈ [((1 : Nat), (145 : Nat)), (600, 600), (1, 145), (3, 129)] := by
    intro r
    simp only [List.mem_cons, List.mem_singleton, List.not_mem_nil, or_false]
    tauto
  ⟨hL, hM, by decide, by decide, by decide, by decide,
    C16_order_and_repetition_irrelevant _ _ _ _ hL hM (by decide) (by decide) (by decide)
      (by decide)⟩

/-! ## The result as a function of the covered addresses -/

theorem rangeLt_of_canon {l : List Range} (h : Canon l) : l.Pairwise rangeLt := by
  refine List.Pairwise.imp ?_ (canon_strictly_ascending h)
  intro a b hab
  exact Or.inl hab

theorem bounded_of_canon_cover {r O : List Range} (hc : Canon r) (hb : Bounded O)
    (hsub : ∀ a, covered a r → covered a O) : Bounded r := by
  intro x hx
  have hv : x.1 ≤ x.2 := hc.1 x hx
  have h2 : x.2 < U32 := covered_lt_of_bounded hb (hsub x.2 ⟨x, hx, hv, le_refl _⟩)
  exact ⟨Nat.lt_of_le_of_lt hv h2, h2⟩

theorem isPool_of_canon {l : List Range} (hc : Canon l) (hb : Bounded l) : IsPool l :=
  ⟨rangeLt_of_canon hc, hb⟩

theorem mkPool_of_sorted (l : List Range) (h : l.Pairwise rangeLt) : mkPool l = l :=
  sorted_ext _ _ (mkPool_sorted l) h (mem_mkPool l)

theorem covered_mkPool (a : Nat) (l : List Range) : covered a (mkPool l) ↔ covered a l := by
  unfold covered
  constructor
  · rintro ⟨r, hr, h⟩
    exact ⟨r, (mem_mkPool l r).1 hr, h⟩
  · rintro ⟨r, hr, h⟩
    exact ⟨r, (mem_mkPool l r).2 hr, h⟩

/-- On valid pools, the result of `find_diff` is a pool of valid ranges again. -/
theorem find_diff_result_isPool (O N : Pool) (hO : IsPool O) (hN : IsPool N)
    (hvO : ValidPool O) (hvN : ValidPool N) :
    ∃ r, find_diff O N = .ok r ∧ Canon r ∧ IsPool r ∧ ValidPool r ∧
      ∀ a, covered a r ↔ (covered a O ∧ ¬ covered a N) := by
  obtain ⟨r, hr, hc, hcov⟩ := find_diff_spec O N hO hN hvO hvN
  have hb : Bounded r := bounded_of_canon_cover hc hO.2 (fun a h => ((hcov a).1 h).1)
  exact ⟨r, hr, hc, isPool_of_canon hc hb, hc.1, hcov⟩

/-- Claim C23. Lazy and eager normalization give the same: for valid pools `O` and `N`,
`find_diff` applied to the pools that hold all outputs of `getNextReducedRange` for `O` and
for `N` returns what `find_diff O N` returns. -/
theorem C23_eager_normalization_equivalent (O N : Pool) (hO : IsPool O) (hN : IsPool N)
    (hvO : ValidPool O) (hvN : ValidPool N) :
    ∃ r o1 n1, normalize O = .ok o1 ∧ normalize N = .ok n1 ∧ find_diff O N = .ok r ∧
      find_diff (mkPool o1) (mkPool n1) = .ok r := by
  obtain ⟨r, hr, hc, hcov⟩ := find_diff_spec O N hO hN hvO hvN
  obtain ⟨cO, covO⟩ := norm_spec O (sortedFirst_of_isPool hO) hvO
  obtain ⟨cN, covN⟩ := norm_spec N (sortedFirst_of_isPool hN) hvN
  refine ⟨r, norm O, norm N, normalize_eq_norm O hO.2, normalize_eq_norm N hN.2, hr, ?_⟩
  rw [mkPool_of_sorted _ (rangeLt_of_canon cO), mkPool_of_sorted _ (rangeLt_of_canon cN)]
  refine find_diff_eq_of_cover _ _ (isPool_of_canon cO (norm_bounded O hO.2))
    (isPool_of_canon cN (norm_bounded N hN.2)) cO.1 cN.1 r hc ?_
  intro a
  rw [hcov a, covO a, covN a]

/-- The theorem of claim C23 at pools with nested, overlapping and adjacent ranges. -/
theorem C23_witness :
    IsPool [(1, 17), (2, 145), (3, 28), (146, 146), (195, 218), (218, 333)] ∧
    IsPool [(0, 2), (2, 9), (10, 12), (200, 210)] ∧
    ValidPool [(1, 17), (2, 145), (3, 28), (146, 146), (195, 218), (218, 333)] ∧
    ValidPool [(0, 2), (2, 9), (10, 12), (200, 210)] ∧
    ∃ r o1 n1,
      normalize [(1, 17), (2, 145), (3, 28), (146, 146), (195, 218), (218, 333)] = .ok o1 ∧
      normalize [(0, 2), (2, 9), (10, 12), (200, 210)] = .ok n1 ∧
      find_diff [(1, 17), (2, 145), (3, 28), (146, 146), (195, 218), (218, 333)]
        [(0, 2), (2, 9), (10, 12), (200, 210)] = .ok r ∧
      find_diff (mkPool o1) (mkPool n1) = .ok r :=
  ⟨by decide, by decide, by decide, by decide,
    C23_eager_normalization_equivalent
      [(1, 17), (2, 145), (3, 28), (146, 146), (195, 218), (218, 333)]
      [(0, 2), (2, 9), (10, 12), (200, 210)] (by decide) (by decide) (by decide) (by decide)⟩

/-- Claim C25. The result depends only on the covered addresses: when the valid pools `O`
and `O2` cover the same addresses, and the valid pools `N` and `N2` do, `find_diff O N` and
`find_diff O2 N2` return the same list of ranges. -/
theorem C25_result_depends_on_address_sets (O O2 N N2 : Pool) (hO : IsPool O)
    (hO2 : IsPool O2) (hN : IsPool N) (hN2 : IsPool N2) (hvO : ValidPool O)
    (hvO2 : ValidPool O2) (hvN : ValidPool N) (hvN2 : ValidPool N2)
    (hcO : ∀ a, covered a O ↔ covered a O2) (hcN : ∀ a, covered a N ↔ covered a N2) :
    ∃ r, find_diff O N = .ok r ∧ find_diff O2 N2 = .ok r := by
  obtain ⟨r, hr, hc, hcov⟩ := find_diff_spec O N hO hN hvO hvN
  refine ⟨r, hr, find_diff_eq_of_cover O2 N2 hO2 hN2 hvO2 hvN2 r hc ?_⟩
  intro a
  rw [hcov a, hcO a, hcN a]

/-- The theorem of claim C25 at pools that split the same addresses differently. -/
theorem C25_witness :
    IsPool [(1, 5), (6, 10), (20, 30)] ∧ IsPool [(1, 10), (20, 25), (22, 30)] ∧
    IsPool [(3, 4), (4, 7)] ∧ IsPool [(3, 7)] ∧
    ValidPool [(1, 5), (6, 10), (20, 30)] ∧ ValidPool [(1, 10), (20, 25), (22, 30)] ∧
    ValidPool [(3, 4), (4, 7)] ∧ ValidPool [(3, 7)] ∧
    (∀ a, covered a [(1, 5), (6, 10), (20, 30)] ↔
      covered a [(1, 10), (20, 25), (22, 30)]) ∧
    (∀ a, covered a [(3, 4), (4, 7)] ↔ covered a [(3, 7)]) ∧
    ∃ r, find_diff [(1, 5), (6, 10), (20, 30)] [(3, 4), (4, 7)] = .ok r ∧
      find_diff [(1, 10), (20, 25), (22, 30)] [(3, 7)] = .ok r :=
  have h1 : ∀ a, covered a [(1, 5), (6, 10), (20, 30)] ↔
      covered a [(1, 10), (20, 25), (22, 30)] := by
    intro a
    simp only [covered_cons, covered_nil, or_false]
    omega
  have h2 : ∀ a, covered a [(3, 4), (4, 7)] ↔ covered a [(3, 7)] := by
    intro a
    simp only [covered_cons, covered_nil, or_false]
    omega
  ⟨by decide, by decide, by decide, by decide, by decide, by decide, by decide, by decide,
    h1, h2,
    C25_result_depends_on_address_sets [(1, 5), (6, 10), (20, 30)]
      [(1, 10), (20, 25), (22, 30)] [(3, 4), (4, 7)] [(3, 7)] (by decide) (by decide)
      (by decide) (by decide) (by decide) (by decide) (by decide) (by decide) h1 h2⟩

/-- Claim C26. Subtracting in two steps equals subtracting the union: for valid pools `O`,
`A` and `B`, `find_diff O A` returns a pool `r1`, and `find_diff r1 B` returns what
`find_diff O (A ∪ B)` returns, where `A ∪ B` is the pool that holds the ranges of both.
In particular subtracting `A` once more from `r1` returns `r1`. -/
theorem C26_two_steps_equal_union (O A B : Pool) (hO : IsPool O) (hA : IsPool A)
    (hB : IsPool B) (hvO : ValidPool O) (hvA : ValidPool A) (hvB : ValidPool B) :
    ∃ r1 r, find_diff O A = .ok r1 ∧ find_diff r1 B = .ok r ∧
      find_diff O (mkPool (A ++ B)) = .ok r ∧ find_diff r1 A = .ok r1 := by
  obtain ⟨r1, hr1, hc1, hp1, hv1, hcov1⟩ := find_diff_result_isPool O A hO hA hvO hvA
  obtain ⟨r, hr, hc, hcov⟩ := find_diff_spec r1 B hp1 hB hv1 hvB
  have hbU : Bounded (A ++ B) := by
    intro x hx
    rcases List.mem_append.1 hx with h | h
    · exact hA.2 x h
    · exact hB.2 x h
  have hvU : ValidPool (A ++ B) := by
    intro x hx
    rcases List.mem_append.1 hx with h | h
    · exact hvA x h
    · exact hvB x h
  refine ⟨r1, r, hr1, hr, ?_, ?_⟩
  · refine find_diff_eq_of_cover O _ hO (mkPool_isPool _ hbU) hvO (mkPool_valid _ hvU) r hc ?_
    intro a
    rw [hcov a, hcov1 a, covered_mkPool, covered_append]
    tauto
  · refine find_diff_eq_of_cover r1 A hp1 hA hv1 hvA r1 hc1 ?_
    intro a
    rw [hcov1 a]
    tauto

/-- The theorem of claim C26 at overlapping subtrahends. -/
theorem C26_witness :
    IsPool [(0, 100), (200, 4294967295)] ∧ IsPool [(10, 20), (90, 210)] ∧
    IsPool [(15, 30), (50, 60)] ∧
    ValidPool [(0, 100), (200, 4294967295)] ∧ ValidPool [(10, 20), (90, 210)] ∧
    ValidPool [(15, 30), (50, 60)] ∧
    ∃ r1 r, find_diff [(0, 100), (200, 4294967295)] [(10, 20), (90, 210)] = .ok r1 ∧
      find_diff r1 [(15, 30), (50, 60)] = .ok r ∧
      find_diff [(0, 100), (200, 4294967295)]
        (mkPool ([(10, 20), (90, 210)] ++ [(15, 30), (50, 60)])) = .ok r ∧
      find_diff r1 [(10, 20), (90, 210)] = .ok r1 :=
  ⟨by decide, by decide, by decide, by decide, by decide, by decide,
    C26_two_steps_equal_union [(0, 100), (200, 4294967295)] [(10, 20), (90, 210)]
      [(15, 30), (50, 60)] (by decide) (by decide) (by decide) (by decide) (by decide)
      (by decide)⟩

/-! ## Termination and boundary safety on arbitrary pairs -/

theorem pullOld_deref (s : SweepState)
    (hq : ∀ v, s.noncovered_start = some v → ∃ o, s.old_range = some o) :
    ∀ v, (pullOld s).noncovered_start = some v → ∃ o, (pullOld s).old_range = some o := by
  unfold pullOld
  by_cases h : s.advance_old = true
  · rw [if_pos h]
    rcases getNextReducedRange s.old_iter with ⟨r, it⟩
    cases r with
    | none => intro v hv; simp at hv
    | some r => intro v _; exact ⟨r, rfl⟩
  · rw [if_neg h]
    exact hq

theorem pullNew_old_fields (s : SweepState) :
    (pullNew s).noncovered_start = s.noncovered_start ∧ (pullNew s).old_range = s.old_range ∧
      (pullNew s).diff = s.diff := by
  unfold pullNew
  by_cases h : s.advance_new = true
  · rw [if_pos h]
    exact ⟨rfl, rfl, rfl⟩
  · rw [if_neg h]
    exact ⟨rfl, rfl, rfl⟩

theorem compareStep_old_range (s : SweepState) (o n : Range) :
    (compareStep s o n).old_range = s.old_range := by
  unfold compareStep
  by_cases h1 : o.2 < n.1
  · rw [if_pos h1]
    cases s.noncovered_start <;> rfl
  · rw [if_neg h1]
    by_cases h2 : n.2 < o.1
    · rw [if_pos h2]
    · rw [if_neg h2]
      cases s.noncovered_start with
      | none => by_cases h3 : n.2 < o.2 <;> simp [h3]
      | some v => by_cases h3 : n.2 < o.2 <;> by_cases h4 : v < n.1 <;> simp [h3, h4]

/-- After an execution of the loop body, a present `noncovered_start` comes with a present
`old_range`. This needs no assumption on the ranges. -/
theorem sweepBody_deref (s : SweepState)
    (hq : ∀ v, s.noncovered_start = some v → ∃ o, s.old_range = some o) :
    ∀ v, (sweepBody s).1.noncovered_start = some v → ∃ o, (sweepBody s).1.old_range = some o := by
  have h1 := pullOld_deref s hq
  obtain ⟨e1, e2, _⟩ := pullNew_old_fields (pullOld s)
  rw [← e1, ← e2] at h1
  unfold sweepBody
  simp only
  generalize pullNew (pullOld s) = s2 at *
  cases ho : s2.old_range with
  | none =>
    simp only
    intro v hv
    obtain ⟨o, ho2⟩ := h1 v hv
    rw [ho] at ho2
    simp at ho2
  | some o =>
    cases hn : s2.new_range with
    | none =>
      simp only
      intro v _
      exact ⟨o, ho⟩
    | some n =>
      simp only
      intro v _
      exact ⟨o, by rw [compareStep_old_range, ho]⟩

/-- The sweep loop ends within its fuel on all inputs. -/
theorem sweepLoop_total :
    ∀ (fuel : Nat) (s : SweepState), (s.advance_old = true ∨ s.advance_new = true) →
      (∀ v, s.noncovered_start = some v → ∃ o, s.old_range = some o) →
      s.old_iter.length + s.new_iter.length < fuel →
      ∃ s1, sweepLoop fuel s = .ok s1 ∧
        ∀ v, s1.noncovered_start = some v → ∃ o, s1.old_range = some o := by
  intro fuel
  induction fuel with
  | zero => intro s _ _ h; omega
  | succ fuel ih =>
    intro s hf hq hlen
    have hq1 := sweepBody_deref s hq
    unfold sweepLoop
    by_cases hcond : s.old_iter ≠ [] ∨ s.new_iter ≠ []
    · rw [if_pos hcond]
      have hadv := sweepBody_advances s hf
      rcases hb : sweepBody s with ⟨s1, b⟩
      rw [hb] at hadv hq1
      cases b with
      | true => exact ⟨s1, rfl, hq1⟩
      | false =>
        obtain ⟨h1, h2⟩ := hadv rfl
        exact ih s1 h2 hq1 (by simp only at h1; omega)
    · rw [if_neg hcond]
      exact ⟨s, rfl, hq⟩

/-- The drain loop ends within its fuel on all inputs. -/
theorem drainLoop_total :
    ∀ (fuel : Nat) (it : List Range) (d : Pool), it.length < fuel →
      ∃ r, drainLoop fuel it d = .ok r := by
  intro fuel
  induction fuel with
  | zero => intro it d h; omega
  | succ fuel ih =>
    intro it d hlen
    unfold drainLoop
    rcases hg : getNextReducedRange it with ⟨r, it1⟩
    cases r with
    | none => exact ⟨d, rfl⟩
    | some r =>
      have := getNext_some_length hg
      exact ih it1 _ (by omega)

/-- The function `find_diff` returns a pool on all inputs, also on malformed ranges. -/
theorem find_diff_total (O N : Pool) : ∃ r, find_diff O N = .ok r := by
  obtain ⟨s1, hs1, hq⟩ := sweepLoop_total (O.length + N.length + 1) (initState O N)
    (Or.inl rfl) (fun v hv => by simp [initState] at hv) (by simp [initState])
  have hfl : ∃ d, finalFlush s1 = .ok d := by
    unfold finalFlush
    cases hv : s1.noncovered_start with
    | none => exact ⟨_, rfl⟩
    | some v =>
      obtain ⟨o, ho⟩ := hq v hv
      rw [ho]
      exact ⟨_, rfl⟩
  obtain ⟨d, hd⟩ := hfl
  obtain ⟨r, hr⟩ := drainLoop_total (s1.old_iter.length + 1) s1.old_iter d (Nat.lt_succ_self _)
  refine ⟨r, ?_⟩
  unfold find_diff
  rw [hs1]
  simp only
  rw [hd]
  simp only
  exact hr

/-- Claim C27. Boundary safety and termination need no valid ranges: for pools of arbitrary
32-bit pairs, also with `first > last`, `find_diff` returns a pool, and the run in which the
address operations of lines 30, 132 and 149 are checked returns the same pool, so none of
them wraps. -/
theorem C27_safe_on_malformed_ranges (O N : Pool) (hO : IsPool O) (hN : IsPool N) :
    ∃ r, find_diff O N = .ok r ∧ find_diffChk O N = .ok r := by
  obtain ⟨r, hr⟩ := find_diff_total O N
  exact ⟨r, hr, by rw [find_diffChk_eq O N hO.2 hN.2, hr]⟩

/-- The theorem of claim C27 at pools with malformed ranges and both ends of the domain. -/
theorem C27_witness :
    IsPool [(0, 4294967295), (5, 3), (7, 9), (4294967295, 0)] ∧
    IsPool [(4, 4), (8, 6), (9, 0), (4294967295, 4294967294)] ∧
    ∃ r, find_diff [(0, 4294967295), (5, 3), (7, 9), (4294967295, 0)]
        [(4, 4), (8, 6), (9, 0), (4294967295, 4294967294)] = .ok r ∧
      find_diffChk [(0, 4294967295), (5, 3), (7, 9), (4294967295, 0)]
        [(4, 4), (8, 6), (9, 0), (4294967295, 4294967294)] = .ok r :=
  ⟨by decide, by decide,
    C27_safe_on_malformed_ranges [(0, 4294967295), (5, 3), (7, 9), (4294967295, 0)]
      [(4, 4), (8, 6), (9, 0), (4294967295, 4294967294)] (by decide) (by decide)⟩

/-! ## The state after the two pulls, and the pending stretch -/

/-- The state after lines 55-73 of an execution of the body. -/
theorem mid_spec (O N : Pool) (s : SweepState) (hc : SweepCore O N s) (hf : SweepFlags s) :
    SweepCore O N (pullNew (pullOld s)) ∧
    (pullNew (pullOld s)).advance_old = false ∧ (pullNew (pullOld s)).advance_new = false ∧
    (∀ o, (pullNew (pullOld s)).old_range = some o →
      ∃ v, (pullNew (pullOld s)).noncovered_start = some v ∧ o.1 ≤ v ∧ v ≤ o.2 ∧
        (v = o.1 ∨ ∀ y ∈ pendNew (pullNew (pullOld s)), v < y.1)) ∧
    ((pullNew (pullOld s)).old_range = none →
      (pullNew (pullOld s)).noncovered_start = none ∧ pendOld (pullNew (pullOld s)) = []) ∧
    ((pullNew (pullOld s)).new_range = none → pendNew (pullNew (pullOld s)) = []) := by
  obtain ⟨c1, a1, a2, a3, a4, a5, a6, a7, a8⟩ := pullOld_spec O N s hc hf
  have hfn : (pullOld s).advance_new = false → ∃ n, (pullOld s).new_range = some n := by
    intro h
    rw [a2] at h
    rw [a3]
    exact hf.flagNew h
  obtain ⟨c2, b1, b2, b3, b4, b5, b6, b7, b8, b9, b10⟩ := pullNew_spec O N (pullOld s) c1 hfn
  refine ⟨c2, by rw [b2]; exact a1, b1, ?_, ?_, b8⟩
  · intro o ho
    have ho1 := ho
    rw [b3] at ho1
    obtain ⟨v, h1, h2, h3⟩ := a6 o ho1
    have hv : (pullNew (pullOld s)).noncovered_start = some v := by rw [b5]; exact h1
    refine ⟨v, hv, h2, ?_, by rw [b7]; exact h3⟩
    have hcan := c2.canonOld
    have hp : pendOld (pullNew (pullOld s))
        = (v, o.2) :: norm (pullNew (pullOld s)).old_iter := by
      simp only [pendOld, hv, ho]
    rw [hp] at hcan
    exact (canon_append_cons.1 hcan).2.2.1
  · intro h
    rw [b3] at h
    rw [b5, b6]
    exact a5 h

theorem inside_of_core_flags (O N : Pool) (s : SweepState) (hc : SweepCore O N s)
    (hf : SweepFlags s) : PendingInsideOld s := by
  intro v hv
  cases hao : s.advance_old with
  | true =>
    rw [hf.flagOld hao] at hv
    simp at hv
  | false =>
    obtain ⟨o, v1, h1, h2, h3, _⟩ := hf.flagCur hao
    rw [h2] at hv
    simp only [Option.some.injEq] at hv
    subst hv
    refine ⟨o, h1, h3, ?_⟩
    have hcan := hc.canonOld
    have hp : pendOld s = (v1, o.2) :: norm s.old_iter := by
      simp only [pendOld, h2, h1]
    rw [hp] at hcan
    exact (canon_append_cons.1 hcan).2.2.1

theorem sweepBody_inside (O N : Pool) (s : SweepState) (hc : SweepCore O N s)
    (hf : SweepFlags s) : PendingInsideOld (sweepBody s).1 := by
  obtain ⟨hbrk, hcont⟩ := sweepBody_spec O N s hc hf
  obtain ⟨c2, _, _, m1, m2, _⟩ := mid_spec O N s hc hf
  cases hb : (sweepBody s).2 with
  | false =>
    obtain ⟨h1, h2, _⟩ := hcont hb
    exact inside_of_core_flags O N _ h1 h2
  | true =>
    have hs : (sweepBody s).1 = pullNew (pullOld s) := by
      unfold sweepBody at hb ⊢
      simp only at hb ⊢
      generalize pullNew (pullOld s) = s2 at *
      cases ho : s2.old_range with
      | none => rfl
      | some o =>
        cases hn : s2.new_range with
        | none => rfl
        | some n => rw [ho, hn] at hb; simp at hb
    rw [hs]
    intro v hv
    cases ho : (pullNew (pullOld s)).old_range with
    | none =>
      rw [(m2 ho).1] at hv
      simp at hv
    | some o =>
      obtain ⟨v1, h1, h2, h3, _⟩ := m1 o ho
      rw [h1] at hv
      simp only [Option.some.injEq] at hv
      subst hv
      exact ⟨o, rfl, h2, h3⟩

theorem loopHead_inv (O N : Pool) (hO : IsPool O) (hN : IsPool N) (hvO : ValidPool O)
    (hvN : ValidPool N) {s : SweepState} (h : LoopHead O N s) :
    SweepCore O N s ∧ SweepFlags s := by
  induction h with
  | entry => exact initState_core O N hO hN hvO hvN
  | next s _ _ hb ih =>
    obtain ⟨h1, h2, _⟩ := (sweepBody_spec O N s ih.1 ih.2).2 hb
    exact ⟨h1, h2⟩

theorem sweepLoop_inside (O N : Pool) :
    ∀ (fuel : Nat) (s : SweepState), SweepCore O N s → SweepFlags s →
      ∀ s1, sweepLoop fuel s = .ok s1 → PendingInsideOld s1 := by
  intro fuel
  induction fuel with
  | zero =>
    intro s _ _ s1 h
    simp [sweepLoop] at h
  | succ fuel ih =>
    intro s hc hf s1 h
    have hin := sweepBody_inside O N s hc hf
    have hcont := (sweepBody_spec O N s hc hf).2
    unfold sweepLoop at h
    by_cases hcond : s.old_iter ≠ [] ∨ s.new_iter ≠ []
    · rw [if_pos hcond] at h
      rcases hb : sweepBody s with ⟨s2, b⟩
      rw [hb] at h hin hcont
      cases b with
      | true =>
        simp only [Except.ok.injEq] at h
        subst h
        exact hin
      | false =>
        obtain ⟨h1, h2, _⟩ := hcont rfl
        exact ih s2 h1 h2 s1 h
    · rw [if_neg hcond] at h
      simp only [Except.ok.injEq] at h
      subst h
      exact inside_of_core_flags O N _ hc hf

/-- Claim C22. For valid pools, at the end of every execution of the body of the sweep loop
and after the loop: when `noncovered_start` holds a value `v`, `old_range` holds a range
`o` with `o.first <= v <= o.last`. The final flush therefore reads a present range, does not
fault, and flushes a valid range. -/
theorem C22_pending_stretch_inside_old_range (O N : Pool) (hO : IsPool O) (hN : IsPool N)
    (hvO : ValidPool O) (hvN : ValidPool N) :
    (∀ s, LoopHead O N s → (s.old_iter ≠ [] ∨ s.new_iter ≠ []) →
      PendingInsideOld (sweepBody s).1) ∧
    ∃ s1, sweepLoop (O.length + N.length + 1) (initState O N) = .ok s1 ∧
      PendingInsideOld s1 ∧ ∃ d, finalFlush s1 = .ok d := by
  constructor
  · intro s hs _
    obtain ⟨hc, hf⟩ := loopHead_inv O N hO hN hvO hvN hs
    exact sweepBody_inside O N s hc hf
  · obtain ⟨hc, hf⟩ := initState_core O N hO hN hvO hvN
    obtain ⟨s1, hs1, hdone⟩ := sweepLoop_spec O N (O.length + N.length + 1) (initState O N)
      hc hf (by simp [initState])
    obtain ⟨d, hd, _⟩ := finish_spec O N s1 hdone
    exact ⟨s1, hs1, sweepLoop_inside O N _ _ hc hf s1 hs1, d, hd⟩

/-- The theorem of claim C22 at the partial carve-out with a second old range. -/
theorem C22_witness :
    IsPool [(3, 14), (20, 4294967295)] ∧ IsPool [(0, 2), (7, 12)] ∧
    ValidPool [(3, 14), (20, 4294967295)] ∧ ValidPool [(0, 2), (7, 12)] ∧
    (∀ s, LoopHead [(3, 14), (20, 4294967295)] [(0, 2), (7, 12)] s →
      (s.old_iter ≠ [] ∨ s.new_iter ≠ []) → PendingInsideOld (sweepBody s).1) ∧
    ∃ s1, sweepLoop
        (([((3 : Nat), (14 : Nat)), (20, 4294967295)] : Pool).length
          + ([((0 : Nat), (2 : Nat)), (7, 12)] : Pool).length + 1)
        (initState [(3, 14), (20, 4294967295)] [(0, 2), (7, 12)]) = .ok s1 ∧
      PendingInsideOld s1 ∧ ∃ d, finalFlush s1 = .ok d :=
  ⟨by decide, by decide, by decide, by decide,
    C22_pending_stretch_inside_old_range [(3, 14), (20, 4294967295)] [(0, 2), (7, 12)]
      (by decide) (by decide) (by decide) (by decide)⟩

/-! ## The number of ranges of the result -/

theorem length_poolInsert_le (r : Range) (d : Pool) :
    (poolInsert r d).length ≤ d.length + 1 := by
  induction d with
  | nil => simp [poolInsert]
  | cons x xs ih =>
    unfold poolInsert
    by_cases h1 : rangeLt r x
    · rw [if_pos h1]
      simp
    · rw [if_neg h1]
      by_cases h2 : rangeLt x r
      · rw [if_pos h2]
        simp only [List.length_cons]
        omega
      · rw [if_neg h2]
        simp

theorem pullOld_pend (s : SweepState) (hb : Bounded s.old_iter) (hf : SweepFlags s) :
    pendOld (pullOld s) = pendOld s ∧ pendNew (pullOld s) = pendNew s ∧
      (pullOld s).diff = s.diff := by
  obtain ⟨oi, ni, orr, nr, ao, an, ns, d⟩ := s
  cases ao with
  | false =>
    have hs : pullOld ⟨oi, ni, orr, nr, false, an, ns, d⟩ = ⟨oi, ni, orr, nr, false, an, ns, d⟩ := by
      simp [pullOld]
    rw [hs]
    exact ⟨rfl, rfl, rfl⟩
  | true =>
    have hns : ns = none := hf.flagOld rfl
    subst hns
    cases oi with
    | nil =>
      have hs : pullOld ⟨[], ni, orr, nr, true, an, none, d⟩
          = ⟨[], ni, none, nr, false, an, none, d⟩ := by
        simp [pullOld, getNext_nil]
      rw [hs]
      refine ⟨?_, by simp [pendNew], rfl⟩
      cases orr <;> simp [pendOld]
    | cons c rest =>
      obtain ⟨r, it, hg, hn, _, _, _, _⟩ := getNext_spec c rest hb
      have hs : pullOld ⟨c :: rest, ni, orr, nr, true, an, none, d⟩
          = ⟨it, ni, some r, nr, false, an, some r.1, d⟩ := by
        simp [pullOld, hg]
      rw [hs]
      refine ⟨?_, by simp [pendNew], rfl⟩
      have : pendOld ⟨c :: rest, ni, orr, nr, true, an, none, d⟩ = norm (c :: rest) := by
        cases orr <;> simp [pendOld]
      rw [this, hn]
      simp [pendOld]

/-- The case analysis of lines 80-163 does not increase the number of emitted ranges plus
the number of pending ranges of both pools. -/
theorem compare_count (oi ni : List Range) (o n : Range) (v : Nat) (d : Pool) :
    (compareStep ⟨oi, ni, some o, some n, false, false, some v, d⟩ o n).diff.length
      + (pendOld (compareStep ⟨oi, ni, some o, some n, false, false, some v, d⟩ o n)).length
      + (pendNew (compareStep ⟨oi, ni, some o, some n, false, false, some v, d⟩ o n)).length
      ≤ d.length + ((norm oi).length + 1) + ((norm ni).length + 1) := by
  have hi : ∀ e, (poolInsert (v, e) d).length ≤ d.length + 1 := fun e =>
    length_poolInsert_le (v, e) d
  by_cases h1 : o.2 < n.1
  · have := hi o.2
    simp only [compareStep, h1, if_true, pendOld, pendNew, List.length_cons]
    omega
  · by_cases h2 : n.2 < o.1
    · simp only [compareStep, h1, h2, if_true, if_false, pendOld, pendNew, List.length_cons]
      omega
    · have := hi (sub32 n.1 1)
      by_cases h3 : n.2 < o.2 <;> by_cases h4 : v < n.1 <;>
        simp only [compareStep, h1, h2, h3, h4, if_true, if_false, pendOld, pendNew,
          List.length_cons] <;>
        omega

theorem sweepBody_count (O N : Pool) (s : SweepState) (hc : SweepCore O N s)
    (hf : SweepFlags s) :
    (sweepBody s).1.diff.length + (pendOld (sweepBody s).1).length
        + (pendNew (sweepBody s).1).length
      ≤ s.diff.length + (pendOld s).length + (pendNew s).length := by
  obtain ⟨p1, p2, p3⟩ := pullOld_pend s hc.bOld hf
  obtain ⟨c1, a1, a2, a3, _⟩ := pullOld_spec O N s hc hf
  have hfn : (pullOld s).advance_new = false → ∃ n, (pullOld s).new_range = some n := by
    intro h
    rw [a2] at h
    rw [a3]
    exact hf.flagNew h
  obtain ⟨_, _, _, _, _, _, b6, b7, _⟩ := pullNew_spec O N (pullOld s) c1 hfn
  obtain ⟨_, _, b11⟩ := pullNew_old_fields (pullOld s)
  obtain ⟨_, m1, m2, m3, _, _⟩ := mid_spec O N s hc hf
  rw [← p1, ← p2, ← p3, ← b6, ← b7, ← b11]
  unfold sweepBody
  simp only
  generalize pullNew (pullOld s) = s2 at *
  obtain ⟨oi, ni, orr, nr, ao, an, ns, d⟩ := s2
  simp only at m1 m2 m3
  subst m1 m2
  cases orr with
  | none => exact le_refl _
  | some o =>
    cases nr with
    | none => exact le_refl _
    | some n =>
      obtain ⟨v, hv, _⟩ := m3 o rfl
      subst hv
      have := compare_count oi ni o n v d
      simp only [pendOld, pendNew, List.length_cons] at this ⊢
      exact this

theorem sweepLoop_count (O N : Pool) :
    ∀ (fuel : Nat) (s : SweepState), SweepCore O N s → SweepFlags s →
      ∀ s1, sweepLoop fuel s = .ok s1 →
        s1.diff.length + (pendOld s1).length + (pendNew s1).length
          ≤ s.diff.length + (pendOld s).length + (pendNew s).length := by
  intro fuel
  induction fuel with
  | zero =>
    intro s _ _ s1 h
    simp [sweepLoop] at h
  | succ fuel ih =>
    intro s hc hf s1 h
    have hcnt := sweepBody_count O N s hc hf
    have hcont := (sweepBody_spec O N s hc hf).2
    unfold sweepLoop at h
    by_cases hcond : s.old_iter ≠ [] ∨ s.new_iter ≠ []
    · rw [if_pos hcond] at h
      rcases hb : sweepBody s with ⟨s2, b⟩
      rw [hb] at h hcnt hcont
      cases b with
      | true =>
        simp only [Except.ok.injEq] at h
        subst h
        exact hcnt
      | false =>
        obtain ⟨h1, h2, _⟩ := hcont rfl
        exact le_trans (ih s2 h1 h2 s1 h) hcnt
    · rw [if_neg hcond] at h
      simp only [Except.ok.injEq] at h
      subst h
      exact le_refl _

/-- The run of `find_diff` on valid pools: the state in which the sweep loop is left, and
the result in terms of that state. -/
theorem find_diff_run (O N : Pool) (hO : IsPool O) (hN : IsPool N) (hvO : ValidPool O)
    (hvN : ValidPool N) :
    ∃ s1, sweepLoop (O.length + N.length + 1) (initState O N) = .ok s1 ∧ SweepDone O N s1 ∧
      find_diff O N = .ok (s1.diff ++ pendOld s1) := by
  obtain ⟨hc, hf⟩ := initState_core O N hO hN hvO hvN
  obtain ⟨s1, hs1, hdone⟩ := sweepLoop_spec O N (O.length + N.length + 1) (initState O N) hc hf
    (by simp [initState])
  obtain ⟨diff, hfl, hdr⟩ := finish_spec O N s1 hdone
  refine ⟨s1, hs1, hdone, ?_⟩
  unfold find_diff
  rw [hs1]
  simp only
  rw [hfl]
  simp only
  exact hdr

/-- Claim C24. For valid pools `O` and `N`, the number of ranges of `find_diff O N` is at
most the number of normalized ranges of `O` plus the number of normalized ranges of `N`,
which is at most the number of ranges of `O` plus the number of ranges of `N`. -/
theorem C24_result_size_bounded (O N : Pool) (hO : IsPool O) (hN : IsPool N)
    (hvO : ValidPool O) (hvN : ValidPool N) :
    ∃ r o1 n1, find_diff O N = .ok r ∧ normalize O = .ok o1 ∧ normalize N = .ok n1 ∧
      r.length ≤ o1.length + n1.length ∧ o1.length + n1.length ≤ O.length + N.length := by
  obtain ⟨hc, hf⟩ := initState_core O N hO hN hvO hvN
  obtain ⟨s1, hs1, _, hr⟩ := find_diff_run O N hO hN hvO hvN
  have hcnt := sweepLoop_count O N _ _ hc hf s1 hs1
  have h0 : (initState O N).diff.length + (pendOld (initState O N)).length
      + (pendNew (initState O N)).length = (norm O).length + (norm N).length := by
    simp [initState, pendOld, pendNew]
  refine ⟨s1.diff ++ pendOld s1, norm O, norm N, hr, normalize_eq_norm O hO.2,
    normalize_eq_norm N hN.2, ?_, ?_⟩
  · rw [List.length_append]
    omega
  · have := norm_length_le O
    have := norm_length_le N
    omega

/-- The theorem of claim C24 at pools where the bound by the normalized ranges is met. -/
theorem C24_witness :
    IsPool [(0, 50), (0, 100), (200, 300)] ∧ IsPool [(10, 20), (15, 25), (30, 40)] ∧
    ValidPool [(0, 50), (0, 100), (200, 300)] ∧ ValidPool [(10, 20), (15, 25), (30, 40)] ∧
    ∃ r o1 n1, find_diff [(0, 50), (0, 100), (200, 300)] [(10, 20), (15, 25), (30, 40)]
        = .ok r ∧
      normalize [(0, 50), (0, 100), (200, 300)] = .ok o1 ∧
      normalize [(10, 20), (15, 25), (30, 40)] = .ok n1 ∧
      r.length ≤ o1.length + n1.length ∧
      o1.length + n1.length
        ≤ ([((0 : Nat), (50 : Nat)), (0, 100), (200, 300)] : Pool).length
          + ([((10 : Nat), (20 : Nat)), (15, 25), (30, 40)] : Pool).length :=
  ⟨by decide, by decide, by decide, by decide,
    C24_result_size_bounded [(0, 50), (0, 100), (200, 300)] [(10, 20), (15, 25), (30, 40)]
      (by decide) (by decide) (by decide) (by decide)⟩

/-! ## The emitted ranges -/

theorem sweepLoopWith_poolInsert :
    ∀ (fuel : Nat) (s : SweepState), sweepLoopWith poolInsert fuel s = sweepLoop fuel s := by
  intro fuel
  induction fuel with
  | zero => intro s; rfl
  | succ fuel ih =>
    intro s
    unfold sweepLoopWith sweepLoop
    have hb : sweepBodyWith poolInsert s = sweepBody s := rfl
    rw [hb]
    by_cases hcond : s.old_iter ≠ [] ∨ s.new_iter ≠ []
    · rw [if_pos hcond, if_pos hcond]
      rcases sweepBody s with ⟨s1, b⟩
      cases b with
      | true => rfl
      | false => exact ih s1
    · rw [if_neg hcond, if_neg hcond]

theorem drainLoopWith_poolInsert :
    ∀ (fuel : Nat) (it : List Range) (d : Pool),
      drainLoopWith poolInsert fuel it d = drainLoop fuel it d := by
  intro fuel
  induction fuel with
  | zero => intro it d; rfl
  | succ fuel ih =>
    intro it d
    unfold drainLoopWith drainLoop
    rcases getNextReducedRange it with ⟨r, it1⟩
    cases r with
    | none => rfl
    | some r => exact ih it1 _

/-- With the insertion into the ordered set as the parameter, the parametrized program is
`find_diff`. -/
theorem find_diffWith_poolInsert (O N : Pool) : find_diffWith poolInsert O N = find_diff O N := by
  unfold find_diffWith find_diff
  rw [sweepLoopWith_poolInsert]
  cases sweepLoop (O.length + N.length + 1) (initState O N) with
  | error e => rfl
  | ok s =>
    simp only
    have hf : finalFlushWith poolInsert s = finalFlush s := rfl
    rw [hf]
    cases finalFlush s with
    | error e => rfl
    | ok d =>
      simp only
      exact drainLoopWith_poolInsert _ _ _

/-- In a state of the sweep, the ordered set puts every range that lines 80-163 emit at its
end. -/
theorem compareStepWith_log (O N : Pool) (oi ni : List Range) (o n : Range) (v : Nat)
    (d : Pool) (hc : SweepCore O N ⟨oi, ni, some o, some n, false, false, some v, d⟩) :
    compareStepWith logInsert ⟨oi, ni, some o, some n, false, false, some v, d⟩ o n
      = compareStep ⟨oi, ni, some o, some n, false, false, some v, d⟩ o n := by
  have cO := hc.canonOld
  simp only [pendOld] at cO
  obtain ⟨cd, _, _, hdg, _, _⟩ := canon_append_cons.1 cO
  have ins : ∀ e, poolInsert (v, e) d = d ++ [(v, e)] := fun e =>
    poolInsert_of_gap (v, e) d cd.1 hdg
  simp only [compareStepWith, compareStep, logInsert, ins]

theorem sweepBodyWith_log (O N : Pool) (s : SweepState) (hc : SweepCore O N s)
    (hf : SweepFlags s) : sweepBodyWith logInsert s = sweepBody s := by
  obtain ⟨c2, m1, m2, m3, _, _⟩ := mid_spec O N s hc hf
  unfold sweepBodyWith sweepBody
  simp only
  generalize pullNew (pullOld s) = s2 at *
  obtain ⟨oi, ni, orr, nr, ao, an, ns, d⟩ := s2
  simp only at m1 m2 m3
  subst m1 m2
  cases orr with
  | none => rfl
  | some o =>
    cases nr with
    | none => rfl
    | some n =>
      obtain ⟨v, hv, _⟩ := m3 o rfl
      subst hv
      simp only
      rw [compareStepWith_log O N oi ni o n v d c2]

theorem sweepLoopWith_log (O N : Pool) :
    ∀ (fuel : Nat) (s : SweepState), SweepCore O N s → SweepFlags s →
      sweepLoopWith logInsert fuel s = sweepLoop fuel s := by
  intro fuel
  induction fuel with
  | zero => intro s _ _; rfl
  | succ fuel ih =>
    intro s hc hf
    have hcont := (sweepBody_spec O N s hc hf).2
    unfold sweepLoopWith sweepLoop
    rw [sweepBodyWith_log O N s hc hf]
    by_cases hcond : s.old_iter ≠ [] ∨ s.new_iter ≠ []
    · rw [if_pos hcond, if_pos hcond]
      rcases hb : sweepBody s with ⟨s1, b⟩
      rw [hb] at hcont
      cases b with
      | true => rfl
      | false =>
        obtain ⟨h1, h2, _⟩ := hcont rfl
        exact ih s1 h1 h2
    · rw [if_neg hcond, if_neg hcond]

theorem drainLoopWith_log :
    ∀ (fuel : Nat) (it : List Range) (dd : Pool), Bounded it → Canon (dd ++ norm it) →
      drainLoopWith logInsert fuel it dd = drainLoop fuel it dd := by
  intro fuel
  induction fuel with
  | zero => intro it dd _ _; rfl
  | succ fuel ih =>
    intro it dd hb hc
    cases it with
    | nil => rfl
    | cons c rest =>
      obtain ⟨r, it1, hg, hn, _, hb1, _, _⟩ := getNext_spec c rest hb
      rw [hn] at hc
      obtain ⟨cd, _, _, hgap, _, _⟩ := canon_append_cons.1 hc
      have hins : poolInsert r dd = dd ++ [r] := poolInsert_of_gap r dd cd.1 hgap
      unfold drainLoopWith drainLoop
      rw [hg]
      simp only
      rw [hins]
      exact ih it1 (dd ++ [r]) hb1 (by simpa using hc)

theorem finalFlushWith_log (O N : Pool) (s : SweepState) (h : SweepDone O N s) :
    finalFlushWith logInsert s = finalFlush s ∧
      ∀ d1, finalFlush s = .ok d1 → Canon (d1 ++ norm s.old_iter) := by
  obtain ⟨oi, ni, orr, nr, ao, an, ns, d⟩ := s
  obtain ⟨hb, hc, _, hderef⟩ := h
  cases ns with
  | none =>
    have hp : pendOld ⟨oi, ni, orr, nr, ao, an, none, d⟩ = norm oi := by
      cases orr <;> simp [pendOld]
    rw [hp] at hc
    refine ⟨rfl, ?_⟩
    intro d1 hd1
    simp only [finalFlush, Except.ok.injEq] at hd1
    subst hd1
    exact hc
  | some v =>
    obtain ⟨o, ho⟩ := hderef v rfl
    simp only at ho
    subst ho
    simp only [pendOld] at hc
    obtain ⟨cd, _, _, hgap, _, _⟩ := canon_append_cons.1 hc
    have hins : poolInsert (v, o.2) d = d ++ [(v, o.2)] :=
      poolInsert_of_gap (v, o.2) d cd.1 hgap
    refine ⟨by simp [finalFlushWith, finalFlush, logInsert, hins], ?_⟩
    intro d1 hd1
    simp only [finalFlush, hins, Except.ok.injEq] at hd1
    subst hd1
    simpa using hc

/-- On valid pools the sequence of the emitted ranges is the result of `find_diff`. -/
theorem find_diffWith_log (O N : Pool) (hO : IsPool O) (hN : IsPool N) (hvO : ValidPool O)
    (hvN : ValidPool N) : find_diffWith logInsert O N = find_diff O N := by
  obtain ⟨hc, hf⟩ := initState_core O N hO hN hvO hvN
  obtain ⟨s1, hs1, hdone, _⟩ := find_diff_run O N hO hN hvO hvN
  obtain ⟨e1, e2⟩ := finalFlushWith_log O N s1 hdone
  unfold find_diffWith find_diff
  rw [sweepLoopWith_log O N _ _ hc hf, hs1]
  simp only
  rw [e1]
  cases hfl : finalFlush s1 with
  | error e => rfl
  | ok d1 =>
    simp only
    exact drainLoopWith_log _ _ _ hdone.bOld (e2 d1 hfl)

/-- Claim C21. For valid pools, the sequence `E` of the ranges that `find_diff` emits through
`diff.emplace` and `diff.insert`, in the order of emission, is strictly ascending in the
order of the set, and every emitted range starts after the range emitted before it ends.
The ordered set therefore neither rejects nor reorders an emitted range: the result of
`find_diff` is `E` as a list. -/
theorem C21_emissions_ascending (O N : Pool) (hO : IsPool O) (hN : IsPool N)
    (hvO : ValidPool O) (hvN : ValidPool N) :
    ∃ E, find_diffWith logInsert O N = .ok E ∧ find_diff O N = .ok E ∧
      E.Pairwise rangeLt ∧ ∀ q ∈ E.zip E.tail, q.1.2 < q.2.1 := by
  obtain ⟨r, hr, hc, _⟩ := find_diff_spec O N hO hN hvO hvN
  refine ⟨r, by rw [find_diffWith_log O N hO hN hvO hvN, hr], hr, rangeLt_of_canon hc, ?_⟩
  intro q hq
  exact ((canonical_of_canon hc).2 q hq).1

/-- The theorem of claim C21 at the second limit case of the tests. -/
theorem C21_witness :
    IsPool [(0, 0), (0, 1), (10, 10), (10, 50), (50, 50), (100, 4294967295)] ∧
    IsPool [(0, 2), (11, 49), (60, 70), (100, 110), (120, 130), (160, 4294967295)] ∧
    ValidPool [(0, 0), (0, 1), (10, 10), (10, 50), (50, 50), (100, 4294967295)] ∧
    ValidPool [(0, 2), (11, 49), (60, 70), (100, 110), (120, 130), (160, 4294967295)] ∧
    ∃ E, find_diffWith logInsert
        [(0, 0), (0, 1), (10, 10), (10, 50), (50, 50), (100, 4294967295)]
        [(0, 2), (11, 49), (60, 70), (100, 110), (120, 130), (160, 4294967295)] = .ok E ∧
      find_diff [(0, 0), (0, 1), (10, 10), (10, 50), (50, 50), (100, 4294967295)]
        [(0, 2), (11, 49), (60, 70), (100, 110), (120, 130), (160, 4294967295)] = .ok E ∧
      E.Pairwise rangeLt ∧ ∀ q ∈ E.zip E.tail, q.1.2 < q.2.1 :=
  ⟨by decide, by decide, by decide, by decide,
    C21_emissions_ascending
      [(0, 0), (0, 1), (10, 10), (10, 50), (50, 50), (100, 4294967295)]
      [(0, 2), (11, 49), (60, 70), (100, 110), (120, 130), (160, 4294967295)]
      (by decide) (by decide) (by decide) (by decide)⟩

end netup_tt
